import Mathlib

/-!
# findpng2: the crawl coordinator

A shallow embedding of `findpng2.c`: the receive buffer and the PNG signature
test, the visited hash table, the frontier stack, the result array, the
semaphore and the worker loop `watchCount`, followed by the properties proved
about them.

Conventions used throughout.

* `char*` values are `Option URL`, with `none` for `NULL`.
* The global arrays `frontier`, `visited` and `PNGs` are maps from an index
  (an `Int`, counted from the base of the array) to their entry.  The declared
  extent of `frontier` and `visited` is `ARRAY_LEN`; an index outside
  `0 .. ARRAY_LEN - 1` lies outside the array.
* `int` variables are `Int`.  The counters only move by one from their initial
  values, and the target `totalPNGs` is the value `main` stored in that `int`.
* `sem_t items` is its value, a `Nat`; `sem_wait` is `none` when it would block.
* Allocation never fails: `malloc` and `realloc` always return memory.
-/

namespace Crawler

/-! ## Data model -/

/-- A URL is the string held by a `char*`. -/
abbrev URL := String

/-- Declared extent of `frontier[1000]` and `visited[1000]`. -/
def ARRAY_LEN : Int := 1000

/-- `BUF_SIZE`: initial capacity of the receive buffer. -/
def BUF_SIZE : Nat := 1048576

/-- `BUF_INC`: minimal growth of the receive buffer. -/
def BUF_INC : Nat := 524288

/-- `CT_HTML`. -/
def CT_HTML : String := "text/html"

/-- Array store `a[i] = v`. -/
def store {α : Type} (a : Int → α) (i : Int) (v : α) : Int → α :=
  fun j => if j = i then v else a j

/-- The struct `RECV_BUF`: `buf` is the byte memory, `size` the number of valid
bytes, `max_size` the capacity. -/
structure RECV_BUF where
  buf : Nat → Nat
  size : Nat
  max_size : Nat

/-- What the fetch of one URL supplies: the body as the sequence of chunks
libcurl hands to the write callback, `CURLINFO_RESPONSE_CODE`,
`CURLINFO_CONTENT_TYPE` (`none` for `NULL`), the hrefs that libxml2 extracts from
the body after `xmlBuildURI` (`none` for `NULL`), and the bytes found in memory
that `realloc` returns uninitialised. -/
structure Response where
  chunks : List (List Nat)
  response_code : Int
  content_type : Option String
  hrefs : List (Option URL)
  fresh : Nat → Nat

/-- The table `struct hsearch_data`: the keys entered so far and the number of
entries the table has room for. -/
structure hsearch_data where
  keys : List URL
  size : Nat

/-- The global variables of the program.  `targetPosts` and `exhaustPosts` are
ghost counters: they count how often each of the two blocks that set `allDone`
has run, and nothing reads them. -/
structure Globals where
  allDone : Bool
  frontier : Int → Option URL
  visited : Int → Option URL
  visitedHash : hsearch_data
  PNGs : Int → Option URL
  frontierIndex : Int
  urlsVisited : Int
  totalPNGs : Int
  pngsFound : Int
  threads : Int
  count : Int
  items : Nat
  targetPosts : Nat
  exhaustPosts : Nat

/-! ## Receive buffer and PNG signature -/

/-- `recv_buf_init`: a zeroed buffer of `max_size` bytes. -/
def recv_buf_init (max_size : Nat) : RECV_BUF :=
  { buf := fun _ => 0, size := 0, max_size := max_size }

/-- `write_cb_curl3`: append one chunk, growing the buffer when the chunk and
the terminating zero do not fit; `fresh` gives the contents of the new memory. -/
def write_cb_curl3 (fresh : Nat → Nat) (p : RECV_BUF) (p_recv : List Nat) : RECV_BUF :=
  let realsize := p_recv.length
  let q : RECV_BUF :=
    if p.size + realsize + 1 > p.max_size then
      let new_size := p.max_size + max BUF_INC (realsize + 1)
      { p with buf := fun i => if i < p.max_size then p.buf i else fresh i,
               max_size := new_size }
    else p
  let copied : Nat → Nat :=
    fun i => if q.size ≤ i ∧ i < q.size + realsize then p_recv.getD (i - q.size) 0 else q.buf i
  let size := q.size + realsize
  { q with buf := fun i => if i = size then 0 else copied i, size := size }

/-- `curl_easy_perform` as seen by the receive buffer: every chunk of the body
goes through the write callback, in order. -/
def curl_easy_perform (r : Response) (p : RECV_BUF) : RECV_BUF :=
  r.chunks.foldl (write_cb_curl3 r.fresh) p

/-- The fixed PNG signature. -/
def PNG_SIG : List Nat := [0x89, 0x50, 0x4E, 0x47, 0x0D, 0x0A, 0x1A, 0x0A]

/-- The test of `crawlURL` on the first eight bytes of the receive buffer:
the octal escapes 211 and 032 are 0x89 and 0x1A. -/
def png_test (buf : Nat → Nat) : Bool :=
  buf 0 == 0x89 && buf 1 == 0x50 && buf 2 == 0x4E && buf 3 == 0x47 &&
  buf 4 == 0x0D && buf 5 == 0x0A && buf 6 == 0x1A && buf 7 == 0x0A

/-- The body of a response: its chunks put together. -/
def Response.body (r : Response) : List Nat := r.chunks.flatten

/-- Whether fetching with this response makes `crawlURL` take the PNG branch. -/
def Response.isPNG (r : Response) : Bool :=
  png_test (curl_easy_perform r (recv_buf_init BUF_SIZE)).buf

/-! ## Semaphore and hash table -/

/-- `sem_post(&items)`. -/
def sem_post (g : Globals) : Globals := { g with items := g.items + 1 }

/-- `sem_wait(&items)`: `none` when the caller would block. -/
def sem_wait (g : Globals) : Option Globals :=
  if g.items = 0 then none else some { g with items := g.items - 1 }

/-- `hcreate_r(nel, ..)`: an empty table with room for `nel` entries plus
whatever `room` the library adds when it rounds the size up. -/
def hcreate_r (nel room : Nat) : hsearch_data := { keys := [], size := nel + room }

/-- `hsearch_r(.., FIND, ..)`: whether the key is in the table. -/
def hsearch_FIND (key : URL) (h : hsearch_data) : Bool := decide (key ∈ h.keys)

/-- `hsearch_r(.., ENTER, ..)`: a key already present is left alone, a new key
is added when the table has room, and a full table is left unchanged. -/
def hsearch_ENTER (key : URL) (h : hsearch_data) : hsearch_data :=
  if key ∈ h.keys then h
  else if h.keys.length < h.size then { h with keys := h.keys ++ [key] }
  else h

/-! ## find_http, process_data, crawlURL -/

/-- `strncmp(href, "http", 4) == 0`. -/
def http_test (href : URL) : Bool := href.data.take 4 == ['h', 't', 't', 'p']

/-- `strstr(hay, needle) != NULL` on character lists. -/
def strstrList (needle : List Char) : List Char → Bool
  | [] => needle.isEmpty
  | c :: cs => needle.isPrefixOf (c :: cs) || strstrList needle cs

/-- `strstr(ct, needle) != NULL`. -/
def strstr (ct needle : String) : Bool := strstrList needle.data ct.data

/-- The mutex-guarded push of `find_http`: `++frontierIndex` and the store of
the copied href at `frontier[frontierIndex]`.  The code does not test the index:
the store lies inside `frontier[1000]` only when the new index is below
`ARRAY_LEN`, and the theorems about runs confine the index to that range. -/
def frontier_push (href : URL) (g : Globals) : Globals :=
  let fi := g.frontierIndex + 1
  { g with frontierIndex := fi, frontier := store g.frontier fi (some href) }

/-- The `ENTER` call of `find_http`. -/
def hash_enter (href : URL) (g : Globals) : Globals :=
  { g with visitedHash := hsearch_ENTER href g.visitedHash }

/-- One turn of the loop of `find_http` for one href: an href that is not `NULL`
and starts with "http" is looked up; when it is not found it is pushed, entered
into the table, and `items` is posted. -/
def find_http_step (g : Globals) (href : Option URL) : Globals :=
  match href with
  | none => g
  | some h =>
    if http_test h then
      if hsearch_FIND h g.visitedHash then g
      else sem_post (hash_enter h (frontier_push h g))
    else g

/-- `find_http`: the loop over the hrefs of the document. -/
def find_http (hrefs : List (Option URL)) (g : Globals) : Globals :=
  hrefs.foldl find_http_step g

/-- `process_data`: nothing for a status of 400 and above or a missing content
type; `find_http` (through `process_html`) when the content type contains
`text/html`; nothing otherwise. -/
def process_data (r : Response) (g : Globals) : Globals :=
  if r.response_code ≥ 400 then g
  else match r.content_type with
    | none => g
    | some ct => if strstr ct CT_HTML then find_http r.hrefs g else g

/-- The block of `crawlURL` guarded by `mutex2`: the record attempt. -/
def record_block (url : URL) (g : Globals) : Globals :=
  let g1 : Globals :=
    if g.pngsFound < g.totalPNGs then
      { g with PNGs := store g.PNGs g.pngsFound (some url), pngsFound := g.pngsFound + 1 }
    else g
  if g1.pngsFound = g1.totalPNGs then
    sem_post { g1 with allDone := true, targetPosts := g1.targetPosts + 1 }
  else g1

/-- The first half of `crawlURL`: fetch into a fresh receive buffer and, when the
signature test succeeds, run the record attempt. -/
def crawl_record (r : Response) (url : URL) (g : Globals) : Globals :=
  if png_test (curl_easy_perform r (recv_buf_init BUF_SIZE)).buf then record_block url g else g

/-- `crawlURL`: the record attempt followed by `process_data`. -/
def crawlURL (web : URL → Response) (url : URL) (g : Globals) : Globals :=
  process_data (web url) (crawl_record (web url) url g)

/-! ## watchCount and main -/

/-- The first mutex-guarded block of `watchCount`: pop the top of the frontier
and append it to the visited log.  The code does not test either index: the read
lies inside `frontier[1000]` and the store inside `visited[1000]` only when
`0 ≤ frontierIndex` and `urlsVisited < ARRAY_LEN`, and the theorems about runs
confine both to that range. -/
def pop_block (g : Globals) : Option URL × Globals :=
  let url := g.frontier g.frontierIndex
  (url, { g with frontierIndex := g.frontierIndex - 1,
                 visited := store g.visited g.urlsVisited url,
                 urlsVisited := g.urlsVisited + 1 })

/-- The second mutex-guarded block of `watchCount`: the exhaustion check. -/
def exhaust_block (g : Globals) : Globals :=
  if g.count = g.threads ∧ g.frontierIndex < 0 then
    sem_post { g with allDone := true, exhaustPosts := g.exhaustPosts + 1 }
  else g

/-- How a run of one worker ends: it left the loop, it is blocked in `sem_wait`
for good, it popped `NULL` and handed it to `crawlURL`, or the fuel ran out. -/
inductive Outcome where
  | exited (g : Globals)
  | blocked (g : Globals)
  | fault (g : Globals)
  | timeout

/-- `watchCount` run by a single worker, for at most `fuel` turns of its loop. -/
def watchCount (web : URL → Response) : Nat → Globals → Outcome
  | 0, _ => Outcome.timeout
  | fuel + 1, g =>
    match sem_wait g with
    | none => Outcome.blocked g
    | some g1 =>
      let g2 : Globals := { g1 with count := g1.count - 1 }
      if g2.allDone then Outcome.exited (sem_post g2)
      else
        match pop_block g2 with
        | (none, g3) => Outcome.fault g3
        | (some url, g3) =>
          let g4 := crawlURL web url g3
          let g5 : Globals := { g4 with count := g4.count + 1 }
          watchCount web fuel (exhaust_block g5)

/-- The state of the single worker after `sem_wait` and the decrement of
`count`, from the top-of-loop state `g`. -/
def wait_state (g : Globals) : Globals :=
  { ({ g with items := g.items - 1 } : Globals) with count := g.count - 1 }

/-- The state in which the single worker leaves the loop from the top-of-loop
state `g`: `sem_wait`, the decrement of `count`, and the forwarding `sem_post`. -/
def exit_state (g : Globals) : Globals :=
  sem_post (wait_state g)

/-- The end of a turn of the loop of `watchCount`: the increment of `count` and
the exhaustion check. -/
def turn_exhaust (g4 : Globals) : Globals :=
  exhaust_block { g4 with count := g4.count + 1 }

/-- One turn of the loop of `watchCount` after the pop returned `url`: the crawl,
the increment of `count` and the exhaustion check. -/
def turn_state (web : URL → Response) (url : URL) (g3 : Globals) : Globals :=
  turn_exhaust (crawlURL web url g3)

/-- The state in which `main` starts the workers: `t` threads, target `m`, the
seed at `frontier[0]` and in the hash table, `items` at one. -/
def main_init (seed : URL) (t m : Int) (room : Nat) : Globals :=
  { allDone := false
    frontier := store (fun _ => none) 0 (some seed)
    visited := fun _ => none
    visitedHash := hsearch_ENTER seed (hcreate_r 1000 room)
    PNGs := fun _ => none
    frontierIndex := 0
    urlsVisited := 0
    totalPNGs := m
    pngsFound := 0
    threads := t
    count := t
    items := 1
    targetPosts := 0
    exhaustPosts := 0 }

/-! ## Views of the arrays and of the web -/

/-- The first `n` entries of an array, as a list. -/
def seg {α : Type} (a : Int → α) (n : Int) : List α :=
  (List.range n.toNat).map (fun (i : Nat) => a (Int.ofNat i))

/-- The live entries of the frontier, `frontier[0 .. frontierIndex]`, bottom first. -/
def live (g : Globals) : List (Option URL) := seg g.frontier (g.frontierIndex + 1)

/-- The visited log, `visited[0 .. urlsVisited)`. -/
def logged (g : Globals) : List (Option URL) := seg g.visited g.urlsVisited

/-- The recorded results, `PNGs[0 .. pngsFound)`. -/
def png_list (g : Globals) : List (Option URL) := seg g.PNGs g.pngsFound

/-- The receive buffer holds `body` in its first bytes, followed by a zero, and
has room left. -/
def Holds (p : RECV_BUF) (body : List Nat) : Prop :=
  p.size = body.length ∧ p.size < p.max_size ∧ p.buf p.size = 0 ∧
    ∀ i, i < body.length → p.buf i = body.getD i 0

/-- The hrefs that `process_data` hands to `find_http`: none when it returns
before `process_html`. -/
def Response.candidates (r : Response) : List (Option URL) :=
  if r.response_code ≥ 400 then []
  else match r.content_type with
    | none => []
    | some ct => if strstr ct CT_HTML then r.hrefs else []

/-- The links of a response that the crawler follows: the candidates that are
not `NULL` and pass the "http" test. -/
def Response.links (r : Response) : List URL :=
  r.candidates.filterMap (fun h => h.filter http_test)

/-- One link of the web graph: `v` is a followed link of the page at `u`. -/
def Edge (web : URL → Response) (u v : URL) : Prop := v ∈ (web u).links

/-- Reachability from the seed along followed links. -/
def Reach (web : URL → Response) (seed u : URL) : Prop :=
  Relation.ReflTransGen (Edge web) seed u

/-! ## The coordinator as a sequence of discover and pop steps -/

/-- A step of the coordinator: the loop body of `find_http` for one candidate,
or a pop by `watchCount`. -/
inductive CStep where
  | discover (href : Option URL)
  | pop
  deriving DecidableEq

/-- One coordinator step.  A pop is `sem_wait` followed by the pop block, and is
`none` when `sem_wait` would block. -/
def coord_step (g : Globals) : CStep → Option Globals
  | CStep.discover href => some (find_http_step g href)
  | CStep.pop => (sem_wait g).map (fun g1 => (pop_block g1).2)

/-- A sequence of coordinator steps, first step first. -/
def coord_run (g : Globals) : List CStep → Option Globals
  | [] => some g
  | st :: rest => (coord_step g st).bind (fun g1 => coord_run g1 rest)

/-! ## The frontier against a stack -/

/-- A sequence of record attempts, one per URL, in order. -/
def record_all (g : Globals) (urls : List URL) : Globals :=
  urls.foldl (fun s u => record_block u s) g

/-- A response with status 404 whose body is the PNG signature. -/
def resp_404_png : Response :=
  { chunks := [PNG_SIG], response_code := 404, content_type := some "text/html",
    hrefs := [some "http://b"], fresh := fun _ => 0 }

/-- A response with status 300 and an HTML body that links to one URL. -/
def resp_300_html : Response :=
  { chunks := [], response_code := 300, content_type := some "text/html",
    hrefs := [some "http://b"], fresh := fun _ => 0 }

/-- The state in which the single worker calls `crawlURL` on the seed `http://a`:
after `sem_wait`, the decrement of `count` and the pop, with target 1. -/
def seed_popped : Globals := (pop_block (wait_state (main_init "http://a" 1 1 0))).2


/-! ## Invariants -/

/-- The coordinator invariant: the popped log followed by the live frontier
entries is a rearrangement of the keys of the hash table, which has no key
twice. -/
structure CoordInv (g : Globals) : Prop where
  fi_ge : -1 ≤ g.frontierIndex
  uv_ge : 0 ≤ g.urlsVisited
  keys_nodup : g.visitedHash.keys.Nodup
  perm : (logged g ++ live g).Perm (g.visitedHash.keys.map some)

/-- The semaphore counts the live entries of the frontier plus the posts made by
the two blocks that set `allDone`. -/
def ItemsEq (g : Globals) : Prop :=
  (g.items : Int) = g.frontierIndex + 1 + g.targetPosts + g.exhaustPosts

/-- A short run of the coordinator: pop the seed, meet `http://b` twice, a URL
that is not "http", a `NULL` href and `http://c`, then pop. -/
def sample_steps : List CStep :=
  [CStep.pop, CStep.discover (some "http://b"), CStep.discover (some "http://b"),
    CStep.discover (some "ftp://x"), CStep.discover none, CStep.discover (some "http://c"),
    CStep.pop]

/-- The state the short run ends in. -/
def sample_state : Globals :=
  (coord_run (main_init "http://a" 1 1 0) sample_steps).getD (main_init "http://a" 1 1 0)

/-! ## The single-worker crawl -/

/-- Whether an entry of the visited log is a URL whose fetch takes the PNG
branch of `crawlURL`. -/
def png_url (web : URL → Response) (x : Option URL) : Bool :=
  match x with
  | some u => (web u).isPNG
  | none => false

/-- What `find_http` leaves alone: every global but the frontier, its index,
the keys of the hash table and `items`; and the frontier index does not drop. -/
def HttpFrame (g g1 : Globals) : Prop :=
  g1.allDone = g.allDone ∧ g1.visited = g.visited ∧ g1.urlsVisited = g.urlsVisited ∧
  g1.PNGs = g.PNGs ∧ g1.pngsFound = g.pngsFound ∧ g1.totalPNGs = g.totalPNGs ∧
  g1.threads = g.threads ∧ g1.count = g.count ∧ g1.targetPosts = g.targetPosts ∧
  g1.exhaustPosts = g.exhaustPosts ∧ g1.visitedHash.size = g.visitedHash.size ∧
  g.frontierIndex ≤ g1.frontierIndex

/-- The invariant of the single-worker loop of `watchCount`, at the top of the
loop: the coordinator invariant; one thread, idle; `allDone` is set exactly when
one of the two blocks has posted; every key of the table is reachable from the
seed and every followed link of a popped URL is a key; the results are the popped
URLs that are PNGs, in pop order, and number at most the target; the target block
has posted exactly when the target is met, and then the last popped URL is a PNG;
the exhaustion block has posted exactly when the frontier ran empty. -/
structure LoopInv (web : URL → Response) (seed : URL) (g : Globals) : Prop where
  coord : CoordInv g
  items : ItemsEq g
  threads_one : g.threads = 1
  count_one : g.count = 1
  done_iff : g.allDone = true ↔ 0 < g.targetPosts + g.exhaustPosts
  seed_in : seed ∈ g.visitedHash.keys
  reach : ∀ u ∈ g.visitedHash.keys, Reach web seed u
  closed : ∀ u v, some u ∈ logged g → Edge web u v → v ∈ g.visitedHash.keys
  pngs : png_list g = (logged g).filter (png_url web)
  found_ge : 0 ≤ g.pngsFound
  target : (g.targetPosts = 0 ∧ g.pngsFound < g.totalPNGs) ∨
    (g.targetPosts = 1 ∧ g.pngsFound = g.totalPNGs ∧
      ∃ pre u, logged g = pre ++ [some u] ∧ (web u).isPNG = true)
  exhaust : (g.exhaustPosts = 0 ∧ (g.targetPosts = 0 → 0 ≤ g.frontierIndex)) ∨
    (g.exhaustPosts = 1 ∧ g.frontierIndex = -1)

/-! ## Sample web graphs -/

/-- A page without content: status 200, `text/html`, no links, empty body. -/
def empty_page : Response :=
  { chunks := [], response_code := 200, content_type := some "text/html", hrefs := [],
    fresh := fun _ => 0 }

/-- The web in which every URL is an empty page. -/
def web_empty : URL → Response := fun _ => empty_page

/-- The web of the scenario: `a` links to `b` and `c`, `b` links to `d`, `d` is a
PNG, `c` has no links. -/
def web_abcd : URL → Response := fun u =>
  if u = "http://a" then { empty_page with hrefs := [some "http://b", some "http://c"] }
  else if u = "http://b" then { empty_page with hrefs := [some "http://d"] }
  else if u = "http://d" then
    { empty_page with chunks := [PNG_SIG], content_type := some "image/png" }
  else empty_page

/-- The URLs of the scenario. -/
def urls_abcd : Finset URL := {"http://a", "http://b", "http://c", "http://d"}

/-- What a finished run of the worker recorded: the number of results, the
number of pops, and the result list; `none` when the worker did not leave the
loop. -/
def Outcome.summary : Outcome → Option (Int × Int × List (Option URL))
  | Outcome.exited g => some (g.pngsFound, g.urlsVisited, png_list g)
  | _ => none

/-- A state with target 2000 and 1999 results recorded. -/
def target_2000 : Globals := { main_init "http://a" 1 2000 0 with pngsFound := 1999 }

/-! ## Several workers -/

/-- Where a worker stands in `watchCount`, with the local variables it holds
there.  Each value names the next atomic step of the worker. -/
inductive PC where
  /-- About to call `sem_wait`. -/
  | at_wait
  /-- `sem_wait` returned; about to decrement `count`. -/
  | at_dec
  /-- About to test `allDone`. -/
  | at_check
  /-- Saw `allDone` set; about to forward with `sem_post` and leave the loop. -/
  | at_forward
  /-- Saw `allDone` clear; about to run the pop block. -/
  | at_pop
  /-- In `crawlURL` with the popped URL; about to fetch, test the signature and
  run the record attempt. -/
  | at_record (url : URL)
  /-- In the loop of `find_http`; about to test the next href and look it up. -/
  | at_href (hrefs : List (Option URL))
  /-- The lookup of `href` found nothing; about to run the push under the mutex. -/
  | at_push (href : URL) (rest : List (Option URL))
  /-- Pushed `href`; about to enter it into the hash table. -/
  | at_enter (href : URL) (rest : List (Option URL))
  /-- Entered the href; about to post `items`. -/
  | at_post (rest : List (Option URL))
  /-- Back from `crawlURL`; about to increment `count`. -/
  | at_inc
  /-- About to run the exhaustion check. -/
  | at_exhaust
  /-- Left the loop. -/
  | exited
  /-- Popped `NULL` and handed it to `crawlURL`. -/
  | crashed
  deriving DecidableEq

/-- The shared globals and the position of every worker. -/
structure Sys where
  g : Globals
  pcs : List PC

/-- The next atomic step of a worker at position `pc`: the new globals and the
new position, or `none` when the worker cannot move (it is blocked in `sem_wait`
or has left the loop). -/
def pc_step (web : URL → Response) (g : Globals) : PC → Option (Globals × PC)
  | PC.at_wait => (sem_wait g).map (fun g1 => (g1, PC.at_dec))
  | PC.at_dec => some ({ g with count := g.count - 1 }, PC.at_check)
  | PC.at_check => some (g, if g.allDone then PC.at_forward else PC.at_pop)
  | PC.at_forward => some (sem_post g, PC.exited)
  | PC.at_pop =>
    match pop_block g with
    | (some url, g1) => some (g1, PC.at_record url)
    | (none, g1) => some (g1, PC.crashed)
  | PC.at_record url => some (crawl_record (web url) url g, PC.at_href (web url).candidates)
  | PC.at_href [] => some (g, PC.at_inc)
  | PC.at_href (none :: rest) => some (g, PC.at_href rest)
  | PC.at_href (some h :: rest) =>
    if http_test h then
      if hsearch_FIND h g.visitedHash then some (g, PC.at_href rest)
      else some (g, PC.at_push h rest)
    else some (g, PC.at_href rest)
  | PC.at_push h rest => some (frontier_push h g, PC.at_enter h rest)
  | PC.at_enter h rest => some (hash_enter h g, PC.at_post rest)
  | PC.at_post rest => some (sem_post g, PC.at_href rest)
  | PC.at_inc => some ({ g with count := g.count + 1 }, PC.at_exhaust)
  | PC.at_exhaust => some (exhaust_block g, PC.at_wait)
  | PC.exited => none
  | PC.crashed => none

/-- Worker `i` takes its next atomic step. -/
def sys_step (web : URL → Response) (s : Sys) (i : Nat) : Option Sys :=
  match s.pcs.get? i with
  | none => none
  | some pc => (pc_step web s.g pc).map (fun p => { g := p.1, pcs := s.pcs.set i p.2 })

/-- A schedule: the workers take their steps in the order listed. -/
def sys_run (web : URL → Response) (s : Sys) : List Nat → Option Sys
  | [] => some s
  | i :: rest => (sys_step web s i).bind (fun s1 => sys_run web s1 rest)

/-- The state in which `main` has started `T` workers. -/
def sys_init (seed : URL) (T : Nat) (m : Int) (room : Nat) : Sys :=
  { g := main_init seed T m room, pcs := List.replicate T PC.at_wait }

/-- The states a schedule passes through, the first state first; the list ends
where a worker cannot take its step. -/
def sys_states (web : URL → Response) (s : Sys) : List Nat → List Sys
  | [] => [s]
  | i :: rest =>
    match sys_step web s i with
    | none => [s]
    | some s1 => s :: sys_states web s1 rest

/-- Both arrays are used inside their declared extent: the top of the frontier
is a slot of `frontier[1000]` (or the frontier is empty) and the visited log fits
`visited[1000]`. -/
def in_bounds (g : Globals) : Bool :=
  decide (-1 ≤ g.frontierIndex ∧ g.frontierIndex < ARRAY_LEN ∧
    0 ≤ g.urlsVisited ∧ g.urlsVisited ≤ ARRAY_LEN)

/-- Every state a schedule passes through uses both arrays inside their declared
extent, so that every push has stored inside `frontier[1000]` and every pop has
read inside it and logged inside `visited[1000]`. -/
def run_in_bounds (web : URL → Response) (s : Sys) (sched : List Nat) : Bool :=
  (sys_states web s sched).all (fun s1 => in_bounds s1.g)

/-- A worker is between its `sem_wait` and the pop or the forwarding post that
follows it. -/
def PC.between : PC → Bool
  | PC.at_dec => true
  | PC.at_check => true
  | PC.at_forward => true
  | PC.at_pop => true
  | _ => false

/-- A worker has pushed an href and not yet posted `items` for it. -/
def PC.pending : PC → Bool
  | PC.at_enter _ _ => true
  | PC.at_post _ => true
  | _ => false

/-- Tokens held: one for a worker between its wait and its pop or forward,
one for a worker that owes a post. -/
def PC.held (pc : PC) : Int := if pc.between || pc.pending then 1 else 0

/-- A worker is about to run the pop block. -/
def PC.popping : PC → Bool
  | PC.at_pop => true
  | _ => false

/-- Frontier entries spoken for: one for a worker about to pop, one for a
worker that owes a post. -/
def PC.claimed (pc : PC) : Int := if pc.popping || pc.pending then 1 else 0

/-- The invariant of the system of workers: `items` plus the tokens held counts
the live entries plus the posts of the blocks that set `allDone`; `allDone` is set
exactly when one of those blocks has posted; the entries spoken for are there. -/
structure SysInv (s : Sys) : Prop where
  tokens : (s.g.items : Int) + (s.pcs.map PC.held).sum
    = s.g.frontierIndex + 1 + s.g.targetPosts + s.g.exhaustPosts
  done_iff : s.g.allDone = true ↔ 0 < s.g.targetPosts + s.g.exhaustPosts
  claims : (s.pcs.map PC.claimed).sum ≤ s.g.frontierIndex + 1

/-- The web of the race: `a` links to `b` and `c`, which both link to `x`. -/
def web_race : URL → Response := fun u =>
  if u = "http://a" then { empty_page with hrefs := [some "http://b", some "http://c"] }
  else if u = "http://b" then { empty_page with hrefs := [some "http://x"] }
  else if u = "http://c" then { empty_page with hrefs := [some "http://x"] }
  else empty_page

/-- A schedule of two workers on the web of the race.  Worker 0 crawls `a` and
pushes `b` and `c`; worker 0 pops `c` and worker 1 pops `b`; both fetch. -/
def race_start : List Nat :=
  [0, 0, 0, 0, 0, 0, 0, 0, 0, 0, 0, 0, 0, 0, 0, 0,
   0, 0, 0, 0, 0, 1, 1, 1, 1, 1]

/-- The two lookups of `x`, one after the other, before either worker pushes. -/
def race_lookups : List Nat := [0, 1]

/-- The two pushes, the two `ENTER` calls and the two posts. -/
def race_pushes : List Nat := [0, 1, 0, 1, 0, 1]

/-- Both workers pop after the race. -/
def race_pops : List Nat := [0, 0, 0, 0, 0, 1, 1, 1, 1, 1, 0, 0, 0, 0, 1, 1, 1, 1]

/-- The state of two workers on the empty web after worker 0 has crawled the seed
and run the exhaustion check. -/
def wake_state : Sys :=
  (sys_run web_empty (sys_init "http://a" 2 1 0) [0, 0, 0, 0, 0, 0, 0, 0]).getD
    (sys_init "http://a" 2 1 0)

/-! ## A page with more links than the frontier has slots -/

/-- The `n`-th link of the wide page: "http" followed by `n` letters. -/
def wide_link (n : Nat) : URL := String.mk (['h', 't', 't', 'p'] ++ List.replicate n 'x')

/-- The first `n` links of the wide page. -/
def wide_links (n : Nat) : List (Option URL) := (List.range n).map (fun k => some (wide_link k))

/-- A page with 1001 distinct links. -/
def wide_page : Response :=
  { empty_page with hrefs := wide_links 1000 ++ [some (wide_link 1000)] }

/-- The web whose seed is the wide page. -/
def web_wide : URL → Response := fun u => if u = "seed" then wide_page else empty_page

/-- The state of the single worker after it popped the seed of the wide web,
with the hash table sized as glibc sizes it (1009 slots). -/
def wide_popped : Globals := (pop_block (wait_state (main_init "seed" 1 50 9))).2

/-- The state of the single worker in `find_http` on the wide page, before the
last link. -/
def wide_before_last : Globals := find_http (wide_links 1000) wide_popped

/-! ## The receive buffer and the PNG signature test -/

theorem holds_init (n : Nat) (h : 0 < n) : Holds (recv_buf_init n) [] := by
  simp [Holds, recv_buf_init, h]

theorem holds_write (fresh : Nat → Nat) (p : RECV_BUF) (body c : List Nat)
    (h : Holds p body) : Holds (write_cb_curl3 fresh p c) (body ++ c) := by
  obtain ⟨hs, hm, hz, hb⟩ := h
  refine ⟨?_, ?_, ?_, ?_⟩
  · simp only [write_cb_curl3]; split <;> simp [hs]
  · simp only [write_cb_curl3]; split
    · show p.size + c.length < p.max_size + max BUF_INC (c.length + 1)
      omega
    · show p.size + c.length < p.max_size
      omega
  · simp [write_cb_curl3]
  · intro i hi
    simp only [List.length_append] at hi
    have hq : ∀ j, j < p.size →
        (if p.size + c.length + 1 > p.max_size then
          ({ p with buf := fun i => if i < p.max_size then p.buf i else fresh i,
                    max_size := p.max_size + max BUF_INC (c.length + 1) } : RECV_BUF)
        else p).buf j = p.buf j := by
      intro j hj
      split
      · simp; intro h; omega
      · rfl
    have hsz : (if p.size + c.length + 1 > p.max_size then
          ({ p with buf := fun i => if i < p.max_size then p.buf i else fresh i,
                    max_size := p.max_size + max BUF_INC (c.length + 1) } : RECV_BUF)
        else p).size = p.size := by
      split <;> rfl
    simp only [write_cb_curl3, hsz]
    have hne : i ≠ p.size + c.length := by omega
    simp only [hne, if_false]
    by_cases hlt : i < p.size
    · have : ¬ (p.size ≤ i ∧ i < p.size + c.length) := by omega
      simp only [this, if_false]
      rw [hq i hlt, hb i (by omega)]
      simp [List.getD_eq_getElem?_getD, List.getElem?_append_left (by omega : i < body.length)]
    · have : (p.size ≤ i ∧ i < p.size + c.length) := by omega
      simp only [this, if_true]
      simp [List.getD_eq_getElem?_getD, List.getElem?_append_right (by omega : body.length ≤ i), hs]

theorem holds_foldl (fresh : Nat → Nat) (cs : List (List Nat)) :
    ∀ (p : RECV_BUF) (body : List Nat), Holds p body →
      Holds (cs.foldl (write_cb_curl3 fresh) p) (body ++ cs.flatten) := by
  induction cs with
  | nil => intro p body h; simpa using h
  | cons c cs ih =>
    intro p body h
    have := ih _ _ (holds_write fresh p body c h)
    simpa [List.foldl, List.flatten, List.append_assoc] using this

theorem png_test_of_holds (p : RECV_BUF) (body : List Nat) (h : Holds p body) :
    png_test p.buf = true ↔ (8 ≤ body.length ∧ body.take 8 = PNG_SIG) := by
  obtain ⟨hs, _, hz, hb⟩ := h
  by_cases h8 : 8 ≤ body.length
  · obtain _ | ⟨b0, _ | ⟨b1, _ | ⟨b2, _ | ⟨b3, _ | ⟨b4, _ | ⟨b5, _ | ⟨b6, _ | ⟨b7, rest⟩⟩⟩⟩⟩⟩⟩⟩ := body <;>
      simp at h8
    have e0 := hb 0 (by simp)
    have e1 := hb 1 (by simp)
    have e2 := hb 2 (by simp)
    have e3 := hb 3 (by simp)
    have e4 := hb 4 (by simp)
    have e5 := hb 5 (by simp)
    have e6 := hb 6 (by simp)
    have e7 := hb 7 (by simp)
    simp at e0 e1 e2 e3 e4 e5 e6 e7
    simp [png_test, PNG_SIG, e0, e1, e2, e3, e4, e5, e6, e7, and_assoc]
  · have hlt : p.size < 8 := by omega
    have hf : png_test p.buf = false := by
      rcases p with ⟨buf, size, mx⟩
      simp only at hz hlt
      simp only [png_test]
      interval_cases size <;> simp [hz]
    simp [hf, h8]

/-- C9: `crawlURL` takes the PNG branch exactly when the fetched body has at
least eight bytes and its first eight bytes are the PNG signature; and whatever the
status code, the content type and the later bytes are, the first half of `crawlURL`
runs the record attempt exactly when the first eight bytes of the body are the
signature. -/
theorem C9_png_classification (r : Response) (url : URL) (g : Globals) :
    (r.isPNG = true ↔ (8 ≤ r.body.length ∧ r.body.take 8 = PNG_SIG)) ∧
    crawl_record r url g = if r.body.take 8 = PNG_SIG then record_block url g else g := by
  have hh : Holds (curl_easy_perform r (recv_buf_init BUF_SIZE)) r.body := by
    have := holds_foldl r.fresh r.chunks (recv_buf_init BUF_SIZE) []
      (holds_init BUF_SIZE (by decide))
    simpa [curl_easy_perform, Response.body] using this
  have key := png_test_of_holds _ _ hh
  refine ⟨by simpa [Response.isPNG] using key, ?_⟩
  have h8 : r.body.take 8 = PNG_SIG → 8 ≤ r.body.length := by
    intro h
    have := congrArg List.length h
    simp [PNG_SIG] at this
    omega
  unfold crawl_record
  by_cases hs : r.body.take 8 = PNG_SIG
  · rw [if_pos hs, if_pos (key.2 ⟨h8 hs, hs⟩)]
  · rw [if_neg hs]
    have : ¬ png_test (curl_easy_perform r (recv_buf_init BUF_SIZE)).buf = true :=
      fun h => hs (key.1 h).2
    rw [if_neg this]

/-! ## The record attempt -/

theorem record_block_bounds (u : URL) (g : Globals) (h0 : 0 ≤ g.pngsFound)
    (hM : g.pngsFound ≤ g.totalPNGs) :
    0 ≤ (record_block u g).pngsFound ∧ (record_block u g).pngsFound ≤ (record_block u g).totalPNGs ∧
      (record_block u g).totalPNGs = g.totalPNGs := by
  simp only [record_block, sem_post]
  split_ifs <;> (simp; omega)

theorem record_all_bounds (urls : List URL) :
    ∀ g : Globals, 0 ≤ g.pngsFound → g.pngsFound ≤ g.totalPNGs →
      0 ≤ (record_all g urls).pngsFound ∧ (record_all g urls).pngsFound ≤ g.totalPNGs ∧
        (record_all g urls).totalPNGs = g.totalPNGs := by
  induction urls with
  | nil => intro g h0 hM; exact ⟨h0, hM, rfl⟩
  | cons u us ih =>
    intro g h0 hM
    obtain ⟨a, b, c⟩ := record_block_bounds u g h0 hM
    obtain ⟨a', b', c'⟩ := ih (record_block u g) a b
    refine ⟨a', ?_, ?_⟩
    · show (record_all (record_block u g) us).pngsFound ≤ g.totalPNGs
      omega
    · show (record_all (record_block u g) us).totalPNGs = g.totalPNGs
      omega

/-- C2: from any state with `0 ≤ pngsFound ≤ totalPNGs`, after every sequence of
record attempts `pngsFound` is still between 0 and the target; an attempt made
below the target stores the URL at index `pngsFound` and adds one to `pngsFound`;
an attempt made at the target leaves `PNGs` and `pngsFound` as they were. -/
theorem C2_bounded_results (g : Globals) (urls : List URL) (u : URL)
    (h0 : 0 ≤ g.pngsFound) (hM : g.pngsFound ≤ g.totalPNGs) :
    (0 ≤ (record_all g urls).pngsFound ∧ (record_all g urls).pngsFound ≤ g.totalPNGs ∧
      (record_all g urls).totalPNGs = g.totalPNGs) ∧
    (g.pngsFound < g.totalPNGs →
      (record_block u g).PNGs = store g.PNGs g.pngsFound (some u) ∧
      (record_block u g).pngsFound = g.pngsFound + 1) ∧
    (g.pngsFound = g.totalPNGs →
      (record_block u g).PNGs = g.PNGs ∧ (record_block u g).pngsFound = g.pngsFound) := by
  refine ⟨record_all_bounds urls g h0 hM, ?_, ?_⟩
  · intro h
    simp only [record_block, sem_post, h, if_true]
    split_ifs <;> simp
  · intro h
    have : ¬ g.pngsFound < g.totalPNGs := by omega
    simp only [record_block, sem_post, this, if_false]
    split_ifs
    simp

/-- C2 at a concrete input: target 2, three attempts. -/
theorem C2_bounded_results_witness :
    (record_all (main_init "http://a" 1 2 0) ["http://x", "http://y", "http://z"]).pngsFound ≤ 2 :=
  (C2_bounded_results (main_init "http://a" 1 2 0) ["http://x", "http://y", "http://z"] "http://x"
    (by decide) (by decide)).1.2.1

/-! ## A response with a failing status -/

theorem process_data_eq (r : Response) (g : Globals) :
    process_data r g = find_http r.candidates g := by
  unfold process_data Response.candidates
  split
  · rfl
  · split
    · rfl
    · split <;> rfl

theorem record_block_frame (u : URL) (g : Globals) :
    (record_block u g).frontier = g.frontier ∧
    (record_block u g).frontierIndex = g.frontierIndex ∧
    (record_block u g).visitedHash = g.visitedHash ∧
    (record_block u g).visited = g.visited ∧
    (record_block u g).urlsVisited = g.urlsVisited := by
  simp only [record_block, sem_post]
  split_ifs <;> simp

/-- C7, refuted as stated, on the crawl step of the seed by the single worker: a
response with status 404 whose body is the PNG signature is recorded as a PNG,
and a response with status 300 and content type `text/html` has its link pushed
on the frontier and entered in the hash table. -/
theorem C7_counterexample :
    (resp_404_png.response_code = 404 ∧
      seed_popped.pngsFound = 0 ∧
      (crawlURL (fun _ => resp_404_png) "http://a" seed_popped).pngsFound = 1 ∧
      (crawlURL (fun _ => resp_404_png) "http://a" seed_popped).PNGs 0 = some "http://a") ∧
    (resp_300_html.response_code = 300 ∧
      seed_popped.frontierIndex = -1 ∧
      seed_popped.visitedHash.keys = ["http://a"] ∧
      (crawlURL (fun _ => resp_300_html) "http://a" seed_popped).frontierIndex = 0 ∧
      (crawlURL (fun _ => resp_300_html) "http://a" seed_popped).frontier 0 = some "http://b" ∧
      (crawlURL (fun _ => resp_300_html) "http://a" seed_popped).visitedHash.keys
        = ["http://a", "http://b"]) := by
  refine ⟨⟨rfl, rfl, ?_, ?_⟩, ⟨rfl, rfl, ?_, ?_, ?_, ?_⟩⟩ <;> decide

/-- C7 as amended: when the status is 400 or above, whatever the content type
and the body are, `process_data` does nothing, so the crawl step leaves the
frontier, `frontierIndex`, the hash table and the visited log unchanged; and when
in addition the body does not start with the PNG signature the whole state is
unchanged, `PNGs` and `pngsFound` included. -/
theorem C7_failed_fetch (web : URL → Response) (url : URL) (g : Globals)
    (h : (web url).response_code ≥ 400) :
    (crawlURL web url g).frontier = g.frontier ∧
    (crawlURL web url g).frontierIndex = g.frontierIndex ∧
    (crawlURL web url g).visitedHash = g.visitedHash ∧
    (crawlURL web url g).visited = g.visited ∧
    (crawlURL web url g).urlsVisited = g.urlsVisited ∧
    ((web url).body.take 8 ≠ PNG_SIG → crawlURL web url g = g) := by
  have hp : crawlURL web url g = crawl_record (web url) url g := by
    unfold crawlURL process_data
    rw [if_pos h]
  have hf := record_block_frame url g
  have hc : crawl_record (web url) url g = record_block url g ∨ crawl_record (web url) url g = g := by
    unfold crawl_record; split
    · exact Or.inl rfl
    · exact Or.inr rfl
  refine ⟨?_, ?_, ?_, ?_, ?_, ?_⟩
  · rw [hp]; rcases hc with e | e <;> rw [e]; exact hf.1
  · rw [hp]; rcases hc with e | e <;> rw [e]; exact hf.2.1
  · rw [hp]; rcases hc with e | e <;> rw [e]; exact hf.2.2.1
  · rw [hp]; rcases hc with e | e <;> rw [e]; exact hf.2.2.2.1
  · rw [hp]; rcases hc with e | e <;> rw [e]; exact hf.2.2.2.2
  · intro hs
    rw [hp]
    have hh : Holds (curl_easy_perform (web url) (recv_buf_init BUF_SIZE)) (web url).body := by
      have := holds_foldl (web url).fresh (web url).chunks (recv_buf_init BUF_SIZE) []
        (holds_init BUF_SIZE (by decide))
      simpa [curl_easy_perform, Response.body] using this
    have key := png_test_of_holds _ _ hh
    unfold crawl_record
    rw [if_neg (fun h => hs (key.1 h).2)]

/-- C7 as amended, at a concrete input: status 500, an HTML body with links. -/
theorem C7_failed_fetch_witness :
    (crawlURL (fun _ => { resp_300_html with response_code := 500 }) "http://a"
      seed_popped).frontierIndex = seed_popped.frontierIndex :=
  (C7_failed_fetch (fun _ => { resp_300_html with response_code := 500 }) "http://a"
    seed_popped (by decide)).2.1


/-! ## Array segments -/

theorem seg_succ {α : Type} (a : Int → α) (n : Int) (h : 0 ≤ n) :
    seg a (n + 1) = seg a n ++ [a n] := by
  obtain ⟨k, rfl⟩ := Int.eq_ofNat_of_zero_le h
  have : ((k : Int) + 1).toNat = k + 1 := by omega
  simp [seg, this, List.range_succ]

theorem seg_nonpos {α : Type} (a : Int → α) (n : Int) (h : n ≤ 0) : seg a n = [] := by
  have : n.toNat = 0 := by omega
  simp [seg, this]

theorem seg_store_ge {α : Type} (a : Int → α) (k n : Int) (v : α) (h : n ≤ k) :
    seg (store a k v) n = seg a n := by
  unfold seg
  apply List.map_congr_left
  intro i hi
  have hi2 : i < n.toNat := List.mem_range.mp hi
  have hne : (i : Int) ≠ k := by omega
  simp only [store, Int.ofNat_eq_coe, if_neg hne]

theorem seg_length {α : Type} (a : Int → α) (n : Int) : (seg a n).length = n.toNat := by
  simp [seg]

theorem store_same {α : Type} (a : Int → α) (k : Int) (v : α) : store a k v k = v := by
  simp [store]

/-! ## Push and pop on the views -/

theorem live_push (u : URL) (g : Globals) (h : -1 ≤ g.frontierIndex) :
    live (frontier_push u g) = live g ++ [some u] := by
  unfold live frontier_push
  simp only
  rw [seg_succ _ _ (by omega), seg_store_ge _ _ _ _ (le_refl _), store_same]

theorem live_pop (g : Globals) (h : 0 ≤ g.frontierIndex) :
    live g = live (pop_block g).2 ++ [(pop_block g).1] := by
  unfold live pop_block
  simp only
  have := seg_succ g.frontier g.frontierIndex h
  rw [this]
  have e : g.frontierIndex - 1 + 1 = g.frontierIndex := by ring
  rw [e]

theorem logged_pop (g : Globals) (h : 0 ≤ g.urlsVisited) :
    logged (pop_block g).2 = logged g ++ [(pop_block g).1] := by
  unfold logged pop_block
  simp only
  rw [seg_succ _ _ h, seg_store_ge _ _ _ _ (le_refl _), store_same]


/-! ## The frontier is a stack -/

theorem coordInv_of_eq {g g1 : Globals} (h : CoordInv g)
    (e1 : g1.frontier = g.frontier) (e2 : g1.frontierIndex = g.frontierIndex)
    (e3 : g1.visited = g.visited) (e4 : g1.urlsVisited = g.urlsVisited)
    (e5 : g1.visitedHash = g.visitedHash) : CoordInv g1 := by
  have hl : live g1 = live g := by unfold live; rw [e1, e2]
  have hg : logged g1 = logged g := by unfold logged; rw [e3, e4]
  exact ⟨by rw [e2]; exact h.fi_ge, by rw [e4]; exact h.uv_ge, by rw [e5]; exact h.keys_nodup,
    by rw [hl, hg, e5]; exact h.perm⟩

theorem coordInv_init (seed : URL) (t m : Int) (room : Nat) :
    CoordInv (main_init seed t m room) ∧ ItemsEq (main_init seed t m room) ∧
      (main_init seed t m room).visitedHash.keys = [seed] ∧
      (main_init seed t m room).visitedHash.size = 1000 + room := by
  have hk : (main_init seed t m room).visitedHash.keys = [seed] := by
    simp [main_init, hsearch_ENTER, hcreate_r]
  have hsz : (main_init seed t m room).visitedHash.size = 1000 + room := by
    simp [main_init, hsearch_ENTER, hcreate_r]
  refine ⟨⟨?_, ?_, ?_, ?_⟩, ?_, hk, hsz⟩
  · simp [main_init]
  · simp [main_init]
  · rw [hk]; simp
  · rw [hk]
    simp [live, logged, main_init, seg, store, List.range_succ]
  · simp [ItemsEq, main_init]

theorem find_http_step_cases (g : Globals) (href : Option URL) :
    find_http_step g href = g ∨
      ∃ h, href = some h ∧ http_test h = true ∧ h ∉ g.visitedHash.keys ∧
        find_http_step g href = sem_post (hash_enter h (frontier_push h g)) := by
  cases href with
  | none => exact Or.inl rfl
  | some h =>
    by_cases ht : http_test h = true
    · by_cases hf : h ∈ g.visitedHash.keys
      · left; simp [find_http_step, ht, hsearch_FIND, hf]
      · right; exact ⟨h, rfl, ht, hf, by simp [find_http_step, ht, hsearch_FIND, hf]⟩
    · left; simp [find_http_step, ht]

theorem hsearch_ENTER_new (h : URL) (t : hsearch_data) (hn : h ∉ t.keys)
    (hroom : t.keys.length < t.size) :
    (hsearch_ENTER h t).keys = t.keys ++ [h] ∧ (hsearch_ENTER h t).size = t.size := by
  simp [hsearch_ENTER, hn, hroom]

theorem hsearch_ENTER_mono (h : URL) (t : hsearch_data) :
    t.keys.length ≤ (hsearch_ENTER h t).keys.length ∧ (hsearch_ENTER h t).size = t.size := by
  unfold hsearch_ENTER
  split_ifs <;> simp

theorem accept_fields (h : URL) (g : Globals) :
    (sem_post (hash_enter h (frontier_push h g))).frontierIndex = g.frontierIndex + 1 ∧
    (sem_post (hash_enter h (frontier_push h g))).urlsVisited = g.urlsVisited ∧
    (sem_post (hash_enter h (frontier_push h g))).visited = g.visited ∧
    (sem_post (hash_enter h (frontier_push h g))).visitedHash = hsearch_ENTER h g.visitedHash ∧
    (sem_post (hash_enter h (frontier_push h g))).items = g.items + 1 ∧
    live (sem_post (hash_enter h (frontier_push h g))) = live (frontier_push h g) ∧
    logged (sem_post (hash_enter h (frontier_push h g))) = logged g :=
  ⟨rfl, rfl, rfl, rfl, rfl, rfl, rfl⟩

theorem coordInv_accept (h : URL) (g : Globals) (hi : CoordInv g)
    (hn : h ∉ g.visitedHash.keys) (hroom : g.visitedHash.keys.length < g.visitedHash.size) :
    CoordInv (sem_post (hash_enter h (frontier_push h g))) := by
  obtain ⟨e1, e2, e3, e4, e5, e6, e7⟩ := accept_fields h g
  obtain ⟨k1, k2⟩ := hsearch_ENTER_new h g.visitedHash hn hroom
  refine ⟨?_, ?_, ?_, ?_⟩
  · rw [e1]; have := hi.fi_ge; omega
  · rw [e2]; exact hi.uv_ge
  · rw [e4, k1]
    exact List.Nodup.append hi.keys_nodup (List.nodup_singleton h) (by simpa using hn)
  · rw [e6, e7, e4, k1, live_push h g hi.fi_ge, List.map_append, ← List.append_assoc]
    exact List.Perm.append_right _ hi.perm

theorem coordInv_pop (g : Globals) (hi : CoordInv g) (h0 : 0 ≤ g.frontierIndex) :
    CoordInv (pop_block g).2 ∧ ∃ u, (pop_block g).1 = some u ∧ u ∈ g.visitedHash.keys := by
  have hl := live_pop g h0
  have hg := logged_pop g hi.uv_ge
  have hp := hi.perm
  rw [hl] at hp
  refine ⟨⟨?_, ?_, ?_, ?_⟩, ?_⟩
  · simp only [pop_block]; omega
  · simp only [pop_block]; have := hi.uv_ge; omega
  · exact hi.keys_nodup
  · rw [hg]
    have : (pop_block g).2.visitedHash = g.visitedHash := rfl
    rw [this]
    refine List.Perm.trans ?_ hp
    rw [List.append_assoc]
    exact List.Perm.append_left _ List.perm_append_comm
  · have hm : (pop_block g).1 ∈ logged g ++ (live (pop_block g).2 ++ [(pop_block g).1]) := by simp
    have := (List.Perm.mem_iff hp).mp hm
    obtain ⟨u, hu, e⟩ := List.mem_map.mp this
    exact ⟨u, e.symm, hu⟩

theorem sem_wait_some (g g1 : Globals) (h : sem_wait g = some g1) :
    0 < g.items ∧ g1 = { g with items := g.items - 1 } := by
  unfold sem_wait at h
  split_ifs at h with h0
  simp only [Option.some.injEq] at h
  exact ⟨Nat.pos_of_ne_zero h0, h.symm⟩


/-! ## Runs of discover and pop steps -/

/-- What a run of discover and pop steps keeps: the coordinator invariant, the
count kept by `items`, and the flags and counters that only the blocks setting
`allDone` touch. -/
theorem coord_step_inv (g g1 : Globals) (st : CStep) (hs : coord_step g st = some g1)
    (hi : CoordInv g) (hit : ItemsEq g) (htp : g.targetPosts = 0) (hep : g.exhaustPosts = 0)
    (hroom : g.visitedHash.keys.length < g.visitedHash.size) :
    CoordInv g1 ∧ ItemsEq g1 ∧ g1.targetPosts = 0 ∧ g1.exhaustPosts = 0 := by
  cases st with
  | discover href =>
    simp only [coord_step, Option.some.injEq] at hs
    subst hs
    rcases find_http_step_cases g href with e | ⟨h, -, -, hn, e⟩
    · rw [e]; exact ⟨hi, hit, htp, hep⟩
    · rw [e]
      refine ⟨coordInv_accept h g hi hn hroom, ?_, htp, hep⟩
      unfold ItemsEq at hit ⊢
      simp only [sem_post, hash_enter, frontier_push]
      push_cast
      omega
  | pop =>
    simp only [coord_step] at hs
    cases hw : sem_wait g with
    | none => rw [hw] at hs; simp at hs
    | some g2 =>
      rw [hw] at hs
      simp only [Option.map_some', Option.some.injEq] at hs
      subst hs
      obtain ⟨hpos, rfl⟩ := sem_wait_some g g2 hw
      have hi2 : CoordInv { g with items := g.items - 1 } := coordInv_of_eq hi rfl rfl rfl rfl rfl
      unfold ItemsEq at hit
      have h0 : 0 ≤ g.frontierIndex := by
        rw [htp, hep] at hit
        have : (1 : Int) ≤ (g.items : Int) := by exact_mod_cast hpos
        simp at hit
        omega
      refine ⟨(coordInv_pop _ hi2 h0).1, ?_, htp, hep⟩
      unfold ItemsEq
      simp only [pop_block]
      rw [htp, hep] at hit ⊢
      have : ((g.items - 1 : Nat) : Int) = (g.items : Int) - 1 := by omega
      rw [this]
      simp at hit ⊢
      omega

theorem coord_step_mono (g g1 : Globals) (st : CStep) (hs : coord_step g st = some g1) :
    g.visitedHash.keys.length ≤ g1.visitedHash.keys.length ∧
      g1.visitedHash.size = g.visitedHash.size := by
  cases st with
  | discover href =>
    simp only [coord_step, Option.some.injEq] at hs
    subst hs
    rcases find_http_step_cases g href with e | ⟨h, -, -, -, e⟩
    · rw [e]; exact ⟨le_refl _, rfl⟩
    · rw [e]; exact hsearch_ENTER_mono h g.visitedHash
  | pop =>
    simp only [coord_step] at hs
    cases hw : sem_wait g with
    | none => rw [hw] at hs; simp at hs
    | some g2 =>
      rw [hw] at hs
      simp only [Option.map_some', Option.some.injEq] at hs
      subst hs
      obtain ⟨-, rfl⟩ := sem_wait_some g g2 hw
      exact ⟨le_refl _, rfl⟩

theorem coord_run_mono (steps : List CStep) :
    ∀ g g1 : Globals, coord_run g steps = some g1 →
      g.visitedHash.keys.length ≤ g1.visitedHash.keys.length ∧
        g1.visitedHash.size = g.visitedHash.size := by
  induction steps with
  | nil =>
    intro g g1 h
    simp only [coord_run, Option.some.injEq] at h
    subst h; exact ⟨le_refl _, rfl⟩
  | cons st rest ih =>
    intro g g1 h
    simp only [coord_run] at h
    cases hs : coord_step g st with
    | none => rw [hs] at h; simp at h
    | some g2 =>
      rw [hs] at h
      simp only [Option.some_bind] at h
      obtain ⟨a, b⟩ := coord_step_mono g g2 st hs
      obtain ⟨c, d⟩ := ih g2 g1 h
      exact ⟨le_trans a c, by rw [d, b]⟩

theorem coord_run_inv (steps : List CStep) :
    ∀ g g1 : Globals, coord_run g steps = some g1 →
      CoordInv g → ItemsEq g → g.targetPosts = 0 → g.exhaustPosts = 0 →
      g1.visitedHash.keys.length < g1.visitedHash.size →
      CoordInv g1 ∧ ItemsEq g1 := by
  induction steps with
  | nil =>
    intro g g1 h hi hit _ _ _
    simp only [coord_run, Option.some.injEq] at h
    subst h; exact ⟨hi, hit⟩
  | cons st rest ih =>
    intro g g1 h hi hit htp hep hroom
    simp only [coord_run] at h
    cases hs : coord_step g st with
    | none => rw [hs] at h; simp at h
    | some g2 =>
      rw [hs] at h
      simp only [Option.some_bind] at h
      obtain ⟨a, b⟩ := coord_step_mono g g2 st hs
      obtain ⟨c, d⟩ := coord_run_mono rest g2 g1 h
      have hr : g.visitedHash.keys.length < g.visitedHash.size := by omega
      obtain ⟨i2, it2, tp2, ep2⟩ := coord_step_inv g g2 st hs hi hit htp hep hr
      exact ih g2 g1 h i2 it2 tp2 ep2 hroom

theorem coordInv_facts (g : Globals) (hi : CoordInv g) :
    (logged g ++ live g).Nodup ∧
    (∀ x ∈ logged g ++ live g, ∃ u, x = some u ∧ hsearch_FIND u g.visitedHash = true) ∧
    (logged g).Nodup ∧
    g.urlsVisited + (g.frontierIndex + 1) = g.visitedHash.keys.length := by
  have hnd : (logged g ++ live g).Nodup :=
    (List.Perm.nodup_iff hi.perm).mpr
      (List.Nodup.map (fun a b h => Option.some.inj h) hi.keys_nodup)
  refine ⟨hnd, ?_, (List.nodup_append.mp hnd).1, ?_⟩
  · intro x hx
    obtain ⟨u, hu, e⟩ := List.mem_map.mp ((List.Perm.mem_iff hi.perm).mp hx)
    exact ⟨u, e.symm, by simp [hsearch_FIND, hu]⟩
  · have := List.Perm.length_eq hi.perm
    simp only [List.length_append, List.length_map, logged, live, seg_length] at this
    have h1 := hi.fi_ge
    have h2 := hi.uv_ge
    omega

/-- C1: from the initial state of `main`, after every sequence of discover steps
and pop steps that the semaphore lets through, and as long as the hash table
holds fewer than 1000 URLs, the visited log followed by the live frontier entries
has no entry twice, every entry is a URL found in the hash table, so the log of
popped URLs has no URL twice; the entries number exactly the URLs discovered, and
both arrays are used inside their 1000 slots. -/
theorem C1_no_duplicate_crawls (seed : URL) (t m : Int) (room : Nat) (steps : List CStep)
    (g : Globals) (hrun : coord_run (main_init seed t m room) steps = some g)
    (hlt : g.visitedHash.keys.length < 1000) :
    (logged g ++ live g).Nodup ∧
    (∀ x ∈ logged g ++ live g, ∃ u, x = some u ∧ hsearch_FIND u g.visitedHash = true) ∧
    (logged g).Nodup ∧
    g.urlsVisited + (g.frontierIndex + 1) = g.visitedHash.keys.length ∧
    (-1 ≤ g.frontierIndex ∧ g.frontierIndex < ARRAY_LEN - 1) ∧
    (0 ≤ g.urlsVisited ∧ g.urlsVisited < ARRAY_LEN) := by
  obtain ⟨i0, it0, _, hsz⟩ := coordInv_init seed t m room
  obtain ⟨_, hsize⟩ := coord_run_mono steps _ _ hrun
  have hroom : g.visitedHash.keys.length < g.visitedHash.size := by rw [hsize, hsz]; omega
  obtain ⟨hi, _⟩ := coord_run_inv steps _ _ hrun i0 it0 rfl rfl hroom
  obtain ⟨a, b, c, d⟩ := coordInv_facts g hi
  have h1 := hi.fi_ge
  have h2 := hi.uv_ge
  refine ⟨a, b, c, d, ⟨h1, ?_⟩, ⟨h2, ?_⟩⟩
  · simp only [ARRAY_LEN]; omega
  · simp only [ARRAY_LEN]; omega


/-- C1 at a concrete run: the seed and `http://c` are popped, `http://b` stays on
the frontier, and the log has no URL twice. -/
theorem C1_no_duplicate_crawls_witness :
    (logged sample_state ++ live sample_state).Nodup ∧
      logged sample_state ++ live sample_state
        = [some "http://a", some "http://c", some "http://b"] :=
  ⟨(C1_no_duplicate_crawls "http://a" 1 1 0 sample_steps sample_state rfl (by decide)).1,
    by decide⟩


/-! ## find_http on the invariant -/

theorem length_le_card (R : Finset URL) (l : List URL) (hnd : l.Nodup)
    (hsub : ∀ k ∈ l, k ∈ R) : l.length ≤ R.card := by
  rw [← List.toFinset_card_of_nodup hnd]
  apply Finset.card_le_card
  intro k hk
  exact hsub k (List.mem_toFinset.mp hk)

theorem httpFrame_refl (g : Globals) : HttpFrame g g :=
  ⟨rfl, rfl, rfl, rfl, rfl, rfl, rfl, rfl, rfl, rfl, rfl, le_refl _⟩

theorem httpFrame_trans {a b c : Globals} (h1 : HttpFrame a b) (h2 : HttpFrame b c) :
    HttpFrame a c := by
  obtain ⟨a1, a2, a3, a4, a5, a6, a7, a8, a9, a10, a11, a12⟩ := h1
  obtain ⟨b1, b2, b3, b4, b5, b6, b7, b8, b9, b10, b11, b12⟩ := h2
  exact ⟨b1.trans a1, b2.trans a2, b3.trans a3, b4.trans a4, b5.trans a5, b6.trans a6,
    b7.trans a7, b8.trans a8, b9.trans a9, b10.trans a10, b11.trans a11, le_trans a12 b12⟩

theorem find_http_step_spec (R : Finset URL) (g : Globals) (c : Option URL)
    (hi : CoordInv g) (hit : ItemsEq g) (hk : ∀ k ∈ g.visitedHash.keys, k ∈ R)
    (hc : ∀ h, c = some h → http_test h = true → h ∈ R)
    (hsize : R.card < g.visitedHash.size) :
    CoordInv (find_http_step g c) ∧ ItemsEq (find_http_step g c) ∧
    HttpFrame g (find_http_step g c) ∧
    (∀ k ∈ (find_http_step g c).visitedHash.keys,
      k ∈ g.visitedHash.keys ∨ (c = some k ∧ http_test k = true)) ∧
    (∀ k ∈ g.visitedHash.keys, k ∈ (find_http_step g c).visitedHash.keys) ∧
    (∀ h, c = some h → http_test h = true → h ∈ (find_http_step g c).visitedHash.keys) := by
  rcases find_http_step_cases g c with e | ⟨h, hc1, ht, hn, e⟩
  · rw [e]
    refine ⟨hi, hit, httpFrame_refl g, fun k hk => Or.inl hk, fun k hk => hk, ?_⟩
    intro h hc1 ht
    subst hc1
    by_contra hn
    have : find_http_step g (some h) ≠ g := by
      simp only [find_http_step, ht, if_true, hsearch_FIND, hn, decide_False]
      intro heq
      have := congrArg Globals.items heq
      simp [sem_post, hash_enter, frontier_push] at this
    exact this e
  · rw [e]
    have hroom : g.visitedHash.keys.length < g.visitedHash.size := by
      have hnd : (g.visitedHash.keys ++ [h]).Nodup :=
        List.Nodup.append hi.keys_nodup (List.nodup_singleton h) (by simpa using hn)
      have := length_le_card R _ hnd (by
        intro k hk1
        rcases List.mem_append.mp hk1 with a | a
        · exact hk k a
        · simp at a; rw [a]; exact hc h hc1 ht)
      simp at this
      omega
    obtain ⟨e1, e2, e3, e4, e5, e6, e7⟩ := accept_fields h g
    obtain ⟨k1, k2⟩ := hsearch_ENTER_new h g.visitedHash hn hroom
    refine ⟨coordInv_accept h g hi hn hroom, ?_, ?_, ?_, ?_, ?_⟩
    · unfold ItemsEq at hit ⊢
      simp only [sem_post, hash_enter, frontier_push]
      push_cast
      omega
    · refine ⟨rfl, rfl, rfl, rfl, rfl, rfl, rfl, rfl, rfl, rfl, ?_, ?_⟩
      · rw [e4, k2]
      · rw [e1]; omega
    · intro k hk1
      rw [e4, k1] at hk1
      rcases List.mem_append.mp hk1 with a | a
      · exact Or.inl a
      · simp at a; rw [a]; exact Or.inr ⟨hc1, ht⟩
    · intro k hk1
      rw [e4, k1]; exact List.mem_append_left _ hk1
    · intro h2 hc2 _
      rw [hc1] at hc2
      simp only [Option.some.injEq] at hc2
      subst hc2
      rw [e4, k1]; simp

theorem find_http_spec (R : Finset URL) (cs : List (Option URL)) :
    ∀ g : Globals, CoordInv g → ItemsEq g → (∀ k ∈ g.visitedHash.keys, k ∈ R) →
      (∀ h, some h ∈ cs → http_test h = true → h ∈ R) →
      R.card < g.visitedHash.size →
      CoordInv (find_http cs g) ∧ ItemsEq (find_http cs g) ∧
      HttpFrame g (find_http cs g) ∧
      (∀ k ∈ (find_http cs g).visitedHash.keys,
        k ∈ g.visitedHash.keys ∨ (some k ∈ cs ∧ http_test k = true)) ∧
      (∀ k ∈ g.visitedHash.keys, k ∈ (find_http cs g).visitedHash.keys) ∧
      (∀ h, some h ∈ cs → http_test h = true → h ∈ (find_http cs g).visitedHash.keys) := by
  induction cs with
  | nil =>
    intro g hi hit _ _ _
    refine ⟨hi, hit, httpFrame_refl g, fun k hk => Or.inl hk, fun k hk => hk, ?_⟩
    intro h hm; simp at hm
  | cons c cs ih =>
    intro g hi hit hk hc hsize
    obtain ⟨a1, a2, a3, a4, a5, a6⟩ := find_http_step_spec R g c hi hit hk
      (fun h e ht => hc h (by rw [e]; simp) ht) hsize
    have hk1 : ∀ k ∈ (find_http_step g c).visitedHash.keys, k ∈ R := by
      intro k hk1
      rcases a4 k hk1 with b | ⟨b, ht⟩
      · exact hk k b
      · exact hc k (by rw [b]; simp) ht
    have hs1 : R.card < (find_http_step g c).visitedHash.size := by
      rw [a3.2.2.2.2.2.2.2.2.2.2.1]; exact hsize
    obtain ⟨b1, b2, b3, b4, b5, b6⟩ := ih (find_http_step g c) a1 a2 hk1
      (fun h hm ht => hc h (List.mem_cons_of_mem _ hm) ht) hs1
    have hf : find_http (c :: cs) g = find_http cs (find_http_step g c) := rfl
    rw [hf]
    refine ⟨b1, b2, httpFrame_trans a3 b3, ?_, ?_, ?_⟩
    · intro k hk2
      rcases b4 k hk2 with d | ⟨d, ht⟩
      · rcases a4 k d with e | ⟨e, ht⟩
        · exact Or.inl e
        · exact Or.inr ⟨by rw [e]; simp, ht⟩
      · exact Or.inr ⟨List.mem_cons_of_mem _ d, ht⟩
    · intro k hk2; exact b5 k (a5 k hk2)
    · intro h hm ht
      rcases List.mem_cons.mp hm with d | d
      · exact b5 h (a6 h d.symm ht)
      · exact b6 h d ht

theorem mem_links_iff (r : Response) (v : URL) :
    v ∈ r.links ↔ (some v ∈ r.candidates ∧ http_test v = true) := by
  simp only [Response.links, List.mem_filterMap]
  constructor
  · rintro ⟨a, ha, e⟩
    cases a with
    | none => simp at e
    | some w =>
      simp only [Option.filter] at e
      split_ifs at e with ht
      simp only [Option.some.injEq] at e
      subst e
      exact ⟨ha, ht⟩
  · rintro ⟨hm, ht⟩
    exact ⟨some v, hm, by simp [Option.filter, ht]⟩


/-! ## One turn of the loop -/

theorem crawl_record_spec (r : Response) (u : URL) (g : Globals)
    (hlt : g.pngsFound < g.totalPNGs) (h0 : 0 ≤ g.pngsFound) :
    ((crawl_record r u g).frontier = g.frontier ∧
      (crawl_record r u g).frontierIndex = g.frontierIndex ∧
      (crawl_record r u g).visitedHash = g.visitedHash ∧
      (crawl_record r u g).visited = g.visited ∧
      (crawl_record r u g).urlsVisited = g.urlsVisited) ∧
    ((crawl_record r u g).threads = g.threads ∧
      (crawl_record r u g).count = g.count ∧
      (crawl_record r u g).totalPNGs = g.totalPNGs ∧
      (crawl_record r u g).exhaustPosts = g.exhaustPosts) ∧
    png_list (crawl_record r u g) = png_list g ++ (if r.isPNG = true then [some u] else []) ∧
    0 ≤ (crawl_record r u g).pngsFound ∧
    (((crawl_record r u g).targetPosts = g.targetPosts ∧
        (crawl_record r u g).allDone = g.allDone ∧
        (crawl_record r u g).items = g.items ∧
        (crawl_record r u g).pngsFound < (crawl_record r u g).totalPNGs) ∨
      ((crawl_record r u g).targetPosts = g.targetPosts + 1 ∧
        (crawl_record r u g).allDone = true ∧
        (crawl_record r u g).items = g.items + 1 ∧
        (crawl_record r u g).pngsFound = (crawl_record r u g).totalPNGs ∧
        r.isPNG = true)) := by
  by_cases hp : r.isPNG = true
  · have hpt : png_test (curl_easy_perform r (recv_buf_init BUF_SIZE)).buf = true := hp
    have e : crawl_record r u g = record_block u g := by
      unfold crawl_record; rw [if_pos hpt]
    rw [e, if_pos hp]
    have hpl : ∀ g1 : Globals, g1.PNGs = store g.PNGs g.pngsFound (some u) →
        g1.pngsFound = g.pngsFound + 1 → png_list g1 = png_list g ++ [some u] := by
      intro g1 h1 h2
      unfold png_list
      rw [h1, h2, seg_succ _ _ h0, seg_store_ge _ _ _ _ (le_refl _), store_same]
    by_cases hhit : g.pngsFound + 1 = g.totalPNGs
    · have e2 : record_block u g =
          sem_post { ({ g with PNGs := store g.PNGs g.pngsFound (some u),
                               pngsFound := g.pngsFound + 1 } : Globals) with
                     allDone := true, targetPosts := g.targetPosts + 1 } := by
        simp only [record_block, hlt, if_true, hhit]
      rw [e2]
      refine ⟨⟨rfl, rfl, rfl, rfl, rfl⟩, ⟨rfl, rfl, rfl, rfl⟩, hpl _ rfl rfl, ?_, Or.inr ⟨rfl, rfl, rfl, hhit, hp⟩⟩
      show 0 ≤ g.pngsFound + 1
      omega
    · have e2 : record_block u g =
          ({ g with PNGs := store g.PNGs g.pngsFound (some u),
                    pngsFound := g.pngsFound + 1 } : Globals) := by
        simp only [record_block, hlt, if_true, hhit, if_false]
      rw [e2]
      refine ⟨⟨rfl, rfl, rfl, rfl, rfl⟩, ⟨rfl, rfl, rfl, rfl⟩, hpl _ rfl rfl, ?_, Or.inl ⟨rfl, rfl, rfl, ?_⟩⟩
      · show 0 ≤ g.pngsFound + 1
        omega
      · show g.pngsFound + 1 < g.totalPNGs
        omega
  · have hpt : ¬ png_test (curl_easy_perform r (recv_buf_init BUF_SIZE)).buf = true := hp
    have e : crawl_record r u g = g := by
      unfold crawl_record; rw [if_neg hpt]
    rw [e, if_neg hp]
    exact ⟨⟨rfl, rfl, rfl, rfl, rfl⟩, ⟨rfl, rfl, rfl, rfl⟩, by simp, h0, Or.inl ⟨rfl, rfl, rfl, hlt⟩⟩

theorem exhaust_block_cases (g : Globals) :
    (g.count = g.threads ∧ g.frontierIndex < 0 ∧
      exhaust_block g = sem_post { g with allDone := true, exhaustPosts := g.exhaustPosts + 1 }) ∨
    (¬ (g.count = g.threads ∧ g.frontierIndex < 0) ∧ exhaust_block g = g) := by
  by_cases h : g.count = g.threads ∧ g.frontierIndex < 0
  · exact Or.inl ⟨h.1, h.2, by simp only [exhaust_block, h, and_self, if_true]⟩
  · exact Or.inr ⟨h, by simp only [exhaust_block, h, if_false]⟩


theorem exhaust_turn_spec (g : Globals) :
    ((turn_exhaust g).frontier = g.frontier ∧
      (turn_exhaust g).frontierIndex = g.frontierIndex ∧
      (turn_exhaust g).visitedHash = g.visitedHash ∧
      (turn_exhaust g).visited = g.visited ∧
      (turn_exhaust g).urlsVisited = g.urlsVisited) ∧
    ((turn_exhaust g).PNGs = g.PNGs ∧ (turn_exhaust g).pngsFound = g.pngsFound ∧
      (turn_exhaust g).totalPNGs = g.totalPNGs ∧ (turn_exhaust g).threads = g.threads ∧
      (turn_exhaust g).targetPosts = g.targetPosts ∧ (turn_exhaust g).count = g.count + 1) ∧
    (((turn_exhaust g).allDone = true ∧ (turn_exhaust g).exhaustPosts = g.exhaustPosts + 1 ∧
        (turn_exhaust g).items = g.items + 1 ∧ g.count + 1 = g.threads ∧ g.frontierIndex < 0) ∨
      ((turn_exhaust g).allDone = g.allDone ∧ (turn_exhaust g).exhaustPosts = g.exhaustPosts ∧
        (turn_exhaust g).items = g.items ∧ ¬ (g.count + 1 = g.threads ∧ g.frontierIndex < 0))) := by
  unfold turn_exhaust
  rcases exhaust_block_cases { g with count := g.count + 1 } with ⟨h1, h2, e⟩ | ⟨h, e⟩
  · rw [e]
    exact ⟨⟨rfl, rfl, rfl, rfl, rfl⟩, ⟨rfl, rfl, rfl, rfl, rfl, rfl⟩, Or.inl ⟨rfl, rfl, rfl, h1, h2⟩⟩
  · rw [e]
    exact ⟨⟨rfl, rfl, rfl, rfl, rfl⟩, ⟨rfl, rfl, rfl, rfl, rfl, rfl⟩, Or.inr ⟨rfl, rfl, rfl, h⟩⟩

theorem turn_inv (web : URL → Response) (seed : URL) (R : Finset URL)
    (hR : ∀ u, Reach web seed u → u ∈ R) (g : Globals) (hinv : LoopInv web seed g)
    (hnd : g.allDone = false) (hsize : R.card < g.visitedHash.size) :
    ∃ u, (pop_block (wait_state g)).1 = some u ∧
      LoopInv web seed (turn_state web u (pop_block (wait_state g)).2) ∧
      logged (turn_state web u (pop_block (wait_state g)).2) = logged g ++ [some u] ∧
      (turn_state web u (pop_block (wait_state g)).2).visitedHash.size = g.visitedHash.size ∧
      (turn_state web u (pop_block (wait_state g)).2).totalPNGs = g.totalPNGs := by
  have hz : g.targetPosts + g.exhaustPosts = 0 := by
    by_contra h
    have := hinv.done_iff.mpr (Nat.pos_of_ne_zero h)
    rw [hnd] at this
    exact absurd this (by simp)
  have htp : g.targetPosts = 0 := by omega
  have hep : g.exhaustPosts = 0 := by omega
  have hfi : 0 ≤ g.frontierIndex := by
    rcases hinv.exhaust with ⟨_, h⟩ | ⟨h, _⟩
    · exact h htp
    · omega
  have hlt : g.pngsFound < g.totalPNGs := by
    rcases hinv.target with ⟨_, h⟩ | ⟨h, _⟩
    · exact h
    · omega
  have hit := hinv.items
  unfold ItemsEq at hit
  have hi2 : CoordInv (wait_state g) := coordInv_of_eq hinv.coord rfl rfl rfl rfl rfl
  obtain ⟨hi3, u, hu, hukey⟩ := coordInv_pop (wait_state g) hi2 hfi
  refine ⟨u, hu, ?_⟩
  have hlog3 : logged (pop_block (wait_state g)).2 = logged g ++ [some u] := by
    have := logged_pop (wait_state g) hinv.coord.uv_ge
    rw [hu] at this; exact this
  have hit3 : ItemsEq (pop_block (wait_state g)).2 := by
    unfold ItemsEq
    show (((g.items - 1 : Nat)) : Int) = g.frontierIndex - 1 + 1 + g.targetPosts + g.exhaustPosts
    have hpos : (1 : Int) ≤ (g.items : Int) := by rw [hit, htp, hep]; simp; omega
    have : ((g.items - 1 : Nat) : Int) = (g.items : Int) - 1 := by omega
    rw [this]; omega
  have f3 : (pop_block (wait_state g)).2.pngsFound = g.pngsFound ∧
      (pop_block (wait_state g)).2.totalPNGs = g.totalPNGs ∧
      (pop_block (wait_state g)).2.threads = g.threads ∧
      (pop_block (wait_state g)).2.count = g.count - 1 ∧
      (pop_block (wait_state g)).2.targetPosts = g.targetPosts ∧
      (pop_block (wait_state g)).2.exhaustPosts = g.exhaustPosts ∧
      (pop_block (wait_state g)).2.allDone = g.allDone ∧
      (pop_block (wait_state g)).2.visitedHash = g.visitedHash ∧
      png_list (pop_block (wait_state g)).2 = png_list g :=
    ⟨rfl, rfl, rfl, rfl, rfl, rfl, rfl, rfl, rfl⟩
  generalize (pop_block (wait_state g)).2 = g3 at hi3 hlog3 hit3 f3 ⊢
  obtain ⟨f31, f32, f33, f34, f35, f36, f37, f38, f39⟩ := f3
  obtain ⟨⟨r1, r2, r3, r4, r5⟩, ⟨r6, r7, r8, r9⟩, rpl, rge, rcase⟩ :=
    crawl_record_spec (web u) u g3 (by rw [f31, f32]; exact hlt) (by rw [f31]; exact hinv.found_ge)
  have hir : CoordInv (crawl_record (web u) u g3) := coordInv_of_eq hi3 r1 r2 r4 r5 r3
  have hlogr : logged (crawl_record (web u) u g3) = logged g ++ [some u] := by
    rw [← hlog3]; unfold logged; rw [r4, r5]
  have hitr : ItemsEq (crawl_record (web u) u g3) := by
    unfold ItemsEq at hit3 ⊢
    rw [r2, r9]
    rcases rcase with ⟨a, _, c, _⟩ | ⟨a, _, c, _, _⟩
    · rw [a, c]; exact hit3
    · rw [a, c]; push_cast; omega
  have hreach_u : Reach web seed u := hinv.reach u hukey
  have hcrawl : crawlURL web u g3 = find_http (web u).candidates (crawl_record (web u) u g3) := by
    unfold crawlURL; rw [process_data_eq]
  have hts : turn_state web u g3
      = turn_exhaust (find_http (web u).candidates (crawl_record (web u) u g3)) := by
    unfold turn_state turn_exhaust; rw [hcrawl]
  rw [hts]
  generalize crawl_record (web u) u g3 = gr at *
  obtain ⟨h4i, h4it, h4f, h4k, h4m, h4c⟩ := find_http_spec R (web u).candidates gr hir hitr
    (by
      intro k hk
      rw [r3, f38] at hk
      exact hR k (hinv.reach k hk))
    (by
      intro h hm ht
      exact hR h (Relation.ReflTransGen.tail hreach_u ((mem_links_iff (web u) h).mpr ⟨hm, ht⟩)))
    (by rw [r3, f38]; exact hsize)
  obtain ⟨q1, q2, q3, q4, q5, q6, q7, q8, q9, q10, q11, q12⟩ := h4f
  have hlog4 : logged (find_http (web u).candidates gr) = logged g ++ [some u] := by
    rw [← hlogr]; unfold logged; rw [q2, q3]
  have hpl4 : png_list (find_http (web u).candidates gr)
      = png_list g ++ (if (web u).isPNG = true then [some u] else []) := by
    rw [← f39, ← rpl]; unfold png_list; rw [q4, q5]
  generalize find_http (web u).candidates gr = g4 at *
  obtain ⟨⟨t1, t2, t3, t4, t5⟩, ⟨t6, t7, t8, t9, t10, t11⟩, tcase⟩ := exhaust_turn_spec g4
  have hlog6 : logged (turn_exhaust g4) = logged g ++ [some u] := by
    rw [← hlog4]; unfold logged; rw [t4, t5]
  have hpl6 : png_list (turn_exhaust g4)
      = png_list g ++ (if (web u).isPNG = true then [some u] else []) := by
    rw [← hpl4]; unfold png_list; rw [t6, t7]
  have hcount : g4.count + 1 = 1 := by
    rw [q8, r7, f34, hinv.count_one]; norm_num
  have hthreads : g4.threads = 1 := by rw [q7, r6, f33, hinv.threads_one]
  have htp4 : g4.targetPosts = gr.targetPosts := q9
  have hep4 : g4.exhaustPosts = 0 := by rw [q10, r9, f36, hep]
  refine ⟨⟨?_, ?_, ?_, ?_, ?_, ?_, ?_, ?_, ?_, ?_, ?_, ?_⟩, hlog6, ?_, ?_⟩
  · exact coordInv_of_eq h4i t1 t2 t4 t5 t3
  · unfold ItemsEq at h4it ⊢
    rw [t2, t10]
    rcases tcase with ⟨_, b, c, _, _⟩ | ⟨_, b, c, _⟩
    · rw [b, c]; push_cast; omega
    · rw [b, c]; exact h4it
  · rw [t9]; exact hthreads
  · rw [t11]; exact hcount
  · rw [t10, htp4]
    rcases tcase with ⟨a, b, _, _, _⟩ | ⟨a, b, _, _⟩
    · rw [a, b]; simp
    · rw [a, b, hep4, q1]
      rcases rcase with ⟨a1, b1, _, _⟩ | ⟨a1, b1, _, _, _⟩
      · rw [a1, b1, f35, f37, htp, hnd]; simp
      · rw [a1, b1]; simp
  · rw [t3]; exact h4m seed (by rw [r3, f38]; exact hinv.seed_in)
  · intro k hk
    rw [t3] at hk
    rcases h4k k hk with a | ⟨a, ht⟩
    · rw [r3, f38] at a; exact hinv.reach k a
    · exact Relation.ReflTransGen.tail hreach_u ((mem_links_iff (web u) k).mpr ⟨a, ht⟩)
  · intro x v hx hev
    rw [hlog6] at hx
    rw [t3]
    rcases List.mem_append.mp hx with a | a
    · exact h4m v (by rw [r3, f38]; exact hinv.closed x v a hev)
    · simp only [List.mem_singleton, Option.some.injEq] at a
      subst a
      obtain ⟨hm, ht⟩ := (mem_links_iff (web x) v).mp hev
      exact h4c v hm ht
  · rw [hpl6, hlog6, List.filter_append, hinv.pngs]
    congr 1
    by_cases hp : (web u).isPNG = true
    · simp [png_url, hp]
    · simp [png_url, hp]
  · rw [t7, q5]; exact rge
  · rw [t10, t7, t8, htp4, q5, q6]
    rcases rcase with ⟨a, _, _, d⟩ | ⟨a, _, _, d, e⟩
    · left; exact ⟨by rw [a, f35, htp], d⟩
    · right
      exact ⟨by rw [a, f35, htp], d, ⟨logged g, u, hlog6, e⟩⟩
  · rw [t2, t10]
    rcases tcase with ⟨_, b, _, _, e⟩ | ⟨_, b, _, d⟩
    · right
      refine ⟨by rw [b, hep4], ?_⟩
      have := h4i.fi_ge
      omega
    · left
      refine ⟨by rw [b, hep4], ?_⟩
      intro _
      by_contra hneg
      exact d ⟨by rw [hcount, hthreads], by omega⟩
  · rw [t3, q11, r3, f38]
  · rw [t8, q6, r8, f32]


/-! ## The loop runs to its exit -/

theorem watchCount_succ (web : URL → Response) (n : Nat) (g : Globals) (hpos : 0 < g.items) :
    watchCount web (n + 1) g =
      if g.allDone = true then Outcome.exited (exit_state g)
      else match pop_block (wait_state g) with
        | (none, g3) => Outcome.fault g3
        | (some url, g3) => watchCount web n (turn_state web url g3) := by
  have hne : g.items ≠ 0 := Nat.pos_iff_ne_zero.mp hpos
  simp only [watchCount, sem_wait, hne, if_false]
  rfl

theorem logged_length_le (R : Finset URL) (g : Globals) (hi : CoordInv g)
    (hk : ∀ k ∈ g.visitedHash.keys, k ∈ R) :
    (logged g).length + (live g).length ≤ R.card := by
  have h1 := List.Perm.length_eq hi.perm
  have h2 := length_le_card R _ hi.keys_nodup hk
  simp only [List.length_append, List.length_map] at h1
  omega

theorem loopInv_items_pos (web : URL → Response) (seed : URL) (g : Globals)
    (hinv : LoopInv web seed g) : 0 < g.items := by
  have hit := hinv.items
  unfold ItemsEq at hit
  have hfi := hinv.coord.fi_ge
  by_cases hd : g.allDone = true
  · have := hinv.done_iff.mp hd
    omega
  · have hz : g.targetPosts + g.exhaustPosts = 0 := by
      by_contra h
      exact hd (hinv.done_iff.mpr (Nat.pos_of_ne_zero h))
    have : 0 ≤ g.frontierIndex := by
      rcases hinv.exhaust with ⟨_, h⟩ | ⟨h, _⟩
      · exact h (by omega)
      · omega
    omega

theorem loop_exits (web : URL → Response) (seed : URL) (R : Finset URL)
    (hR : ∀ u, Reach web seed u → u ∈ R) :
    ∀ (n : Nat) (g : Globals), LoopInv web seed g → R.card < g.visitedHash.size →
      R.card < n + (logged g).length →
      ∃ g0, LoopInv web seed g0 ∧ g0.allDone = true ∧ g0.totalPNGs = g.totalPNGs ∧
        watchCount web n g = Outcome.exited (exit_state g0) := by
  intro n
  induction n with
  | zero =>
    intro g hinv _ hn
    have := logged_length_le R g hinv.coord (fun k hk => hR k (hinv.reach k hk))
    omega
  | succ n ih =>
    intro g hinv hsize hn
    rw [watchCount_succ web n g (loopInv_items_pos web seed g hinv)]
    by_cases hd : g.allDone = true
    · rw [if_pos hd]
      exact ⟨g, hinv, hd, rfl, rfl⟩
    · rw [if_neg hd]
      have hdf : g.allDone = false := by simpa using hd
      obtain ⟨u, hu, hinv2, hlog, hsz, htot⟩ := turn_inv web seed R hR g hinv hdf hsize
      have hsplit : pop_block (wait_state g) = (some u, (pop_block (wait_state g)).2) := by
        rw [← hu]
      rw [hsplit]
      simp only
      obtain ⟨g0, a, b, c, d⟩ := ih _ hinv2 (by rw [hsz]; exact hsize)
        (by rw [hlog]; simp; omega)
      exact ⟨g0, a, b, by rw [c, htot], d⟩

theorem exists_map_some {α : Type} (l : List (Option α)) (h : ∀ x ∈ l, ∃ u, x = some u) :
    ∃ V : List α, l = V.map some := by
  induction l with
  | nil => exact ⟨[], rfl⟩
  | cons x xs ih =>
    obtain ⟨u, rfl⟩ := h x (by simp)
    obtain ⟨V, rfl⟩ := ih (fun y hy => h y (List.mem_cons_of_mem _ hy))
    exact ⟨u :: V, rfl⟩

theorem filter_png_map (web : URL → Response) (V : List URL) :
    (V.map some).filter (png_url web) = (V.filter (fun u => (web u).isPNG)).map some := by
  induction V with
  | nil => rfl
  | cons u V ih =>
    by_cases hp : (web u).isPNG = true
    · simp [List.filter_cons, png_url, hp, ← ih]
    · simp [List.filter_cons, png_url, hp, ← ih]

theorem loopInv_init (web : URL → Response) (seed : URL) (M : Int) (room : Nat) (hM : 0 < M) :
    LoopInv web seed (main_init seed 1 M room) := by
  obtain ⟨hi, hit, hk, _⟩ := coordInv_init seed 1 M room
  refine ⟨hi, hit, rfl, rfl, ?_, ?_, ?_, ?_, ?_, ?_, ?_, ?_⟩
  · simp [main_init]
  · rw [hk]; simp
  · intro u hu
    rw [hk] at hu
    simp at hu
    subst hu
    exact Relation.ReflTransGen.refl
  · intro u v hu
    simp [logged, main_init, seg] at hu
  · simp [png_list, logged, main_init, seg]
  · simp [main_init]
  · left; exact ⟨rfl, hM⟩
  · left; exact ⟨rfl, fun _ => by simp [main_init]⟩

/-- What the single-worker crawl ends in: it leaves the loop from a state that
satisfies the loop invariant with `allDone` set, whose log is a list `V` of
reachable URLs without repetition, whose results are the PNGs of `V` in order,
and with `V` holding every reachable URL when the frontier is empty. -/
theorem crawl_final (web : URL → Response) (seed : URL) (M : Int) (room : Nat)
    (R : Finset URL) (hR : ∀ u, u ∈ R ↔ Reach web seed u) (hcard : R.card < 1000)
    (hM : 0 < M) :
    ∃ (g0 : Globals) (V : List URL), LoopInv web seed g0 ∧ g0.allDone = true ∧
      g0.totalPNGs = M ∧
      watchCount web (R.card + 1) (main_init seed 1 M room) = Outcome.exited (exit_state g0) ∧
      logged g0 = V.map some ∧ V.Nodup ∧ (∀ u ∈ V, u ∈ R) ∧
      g0.pngsFound = ((V.filter (fun u => (web u).isPNG)).length : Int) ∧
      png_list g0 = (V.filter (fun u => (web u).isPNG)).map some ∧
      g0.urlsVisited = (V.length : Int) ∧
      (g0.frontierIndex = -1 → ∀ u ∈ R, u ∈ V) := by
  obtain ⟨_, _, _, hsz⟩ := coordInv_init seed 1 M room
  obtain ⟨g0, hinv, hd, htot, hw⟩ := loop_exits web seed R (fun u h => (hR u).mpr h)
    (R.card + 1) (main_init seed 1 M room) (loopInv_init web seed M room hM)
    (by rw [hsz]; omega) (by omega)
  obtain ⟨hnd, hmem, hlnd, hlen⟩ := coordInv_facts g0 hinv.coord
  obtain ⟨V, hV⟩ := exists_map_some (logged g0) (fun x hx => by
    obtain ⟨u, e, _⟩ := hmem x (List.mem_append_left _ hx)
    exact ⟨u, e⟩)
  have hVnd : V.Nodup := by
    rw [hV] at hlnd
    exact List.Nodup.of_map _ hlnd
  have hVkeys : ∀ u ∈ V, u ∈ g0.visitedHash.keys := by
    intro u hu
    have : some u ∈ logged g0 ++ live g0 := by
      rw [hV]; exact List.mem_append_left _ (List.mem_map_of_mem _ hu)
    obtain ⟨w, hw1, hw2⟩ := List.mem_map.mp ((List.Perm.mem_iff hinv.coord.perm).mp this)
    simp only [Option.some.injEq] at hw2
    rw [← hw2]; exact hw1
  have hpl : png_list g0 = (V.filter (fun u => (web u).isPNG)).map some := by
    rw [hinv.pngs, hV, filter_png_map]
  have hfound : g0.pngsFound = ((V.filter (fun u => (web u).isPNG)).length : Int) := by
    have := congrArg List.length hpl
    simp only [png_list, seg_length, List.length_map] at this
    have h0 := hinv.found_ge
    omega
  have huv : g0.urlsVisited = (V.length : Int) := by
    have := congrArg List.length hV
    simp only [logged, seg_length, List.length_map] at this
    have h0 := hinv.coord.uv_ge
    omega
  refine ⟨g0, V, hinv, hd, by rw [htot]; rfl, hw, hV, hVnd,
    fun u hu => (hR u).mpr (hinv.reach u (hVkeys u hu)), hfound, hpl, huv, ?_⟩
  intro hfi
  have hlive : live g0 = [] := by
    unfold live; rw [hfi]; exact seg_nonpos _ _ (by norm_num)
  have hkV : ∀ k, k ∈ g0.visitedHash.keys → k ∈ V := by
    intro k hk
    have : some k ∈ logged g0 ++ live g0 :=
      (List.Perm.mem_iff hinv.coord.perm).mpr (List.mem_map_of_mem _ hk)
    rw [hlive, List.append_nil, hV] at this
    obtain ⟨w, hw1, hw2⟩ := List.mem_map.mp this
    simp only [Option.some.injEq] at hw2
    rw [← hw2]; exact hw1
  intro u hu
  have hreach := (hR u).mp hu
  unfold Reach at hreach
  induction hreach with
  | refl => exact hkV seed hinv.seed_in
  | tail hab hbc ih =>
    rename_i b c
    have hb : b ∈ V := ih ((hR b).mpr hab)
    exact hkV c (hinv.closed b c (by rw [hV]; exact List.mem_map_of_mem _ hb) hbc)


/-! ## The sample webs -/

theorem reach_web_empty (s u : URL) : Reach web_empty s u ↔ u = s := by
  constructor
  · intro h
    unfold Reach at h
    induction h with
    | refl => rfl
    | tail _ hbc _ =>
      have : (empty_page).links = [] := by decide
      unfold Edge web_empty at hbc
      rw [this] at hbc
      simp at hbc
  · intro h
    rw [h]
    exact Relation.ReflTransGen.refl

theorem links_abcd :
    (web_abcd "http://a").links = ["http://b", "http://c"] ∧
    (web_abcd "http://b").links = ["http://d"] ∧
    (web_abcd "http://c").links = [] ∧
    (web_abcd "http://d").links = [] := by
  refine ⟨?_, ?_, ?_, ?_⟩ <;> decide

theorem reach_web_abcd (u : URL) : u ∈ urls_abcd ↔ Reach web_abcd "http://a" u := by
  obtain ⟨la, lb, lc, ld⟩ := links_abcd
  have eab : Edge web_abcd "http://a" "http://b" := by unfold Edge; rw [la]; simp
  have eac : Edge web_abcd "http://a" "http://c" := by unfold Edge; rw [la]; simp
  have ebd : Edge web_abcd "http://b" "http://d" := by unfold Edge; rw [lb]; simp
  constructor
  · intro h
    simp only [urls_abcd, Finset.mem_insert, Finset.mem_singleton] at h
    rcases h with rfl | rfl | rfl | rfl
    · exact Relation.ReflTransGen.refl
    · exact Relation.ReflTransGen.single eab
    · exact Relation.ReflTransGen.single eac
    · exact Relation.ReflTransGen.tail (Relation.ReflTransGen.single eab) ebd
  · intro h
    unfold Reach at h
    induction h with
    | refl => simp [urls_abcd]
    | tail _ hbc ih =>
      rename_i b c
      simp only [urls_abcd, Finset.mem_insert, Finset.mem_singleton] at ih ⊢
      unfold Edge at hbc
      rcases ih with rfl | rfl | rfl | rfl
      · rw [la] at hbc; simp at hbc; rcases hbc with rfl | rfl <;> simp
      · rw [lb] at hbc; simp at hbc; rw [hbc]; simp
      · rw [lc] at hbc; simp at hbc
      · rw [ld] at hbc; simp at hbc

/-! ## Exhaustion and target termination -/

theorem card_le_length (R : Finset URL) (l : List URL) (h : ∀ u ∈ R, u ∈ l) :
    R.card ≤ l.length := by
  have hsub : R ⊆ l.toFinset := fun u hu => List.mem_toFinset.mpr (h u hu)
  exact le_trans (Finset.card_le_card hsub) (List.toFinset_card_le l)

theorem png_count_le (web : URL → Response) (R : Finset URL) (V : List URL) (hnd : V.Nodup)
    (hsub : ∀ u ∈ V, u ∈ R) :
    (V.filter (fun u => (web u).isPNG)).length
      ≤ (R.filter (fun u => (web u).isPNG = true)).card := by
  apply length_le_card _ _ (List.Nodup.filter _ hnd)
  intro k hk
  obtain ⟨h1, h2⟩ := List.mem_filter.mp hk
  exact Finset.mem_filter.mpr ⟨hsub k h1, h2⟩

theorem png_count_ge (web : URL → Response) (R : Finset URL) (V : List URL)
    (hsup : ∀ u ∈ R, u ∈ V) :
    (R.filter (fun u => (web u).isPNG = true)).card
      ≤ (V.filter (fun u => (web u).isPNG)).length := by
  apply card_le_length
  intro u hu
  obtain ⟨h1, h2⟩ := Finset.mem_filter.mp hu
  exact List.mem_filter.mpr ⟨hsup u h1, h2⟩

theorem exit_state_fields (g : Globals) :
    (exit_state g).allDone = g.allDone ∧ (exit_state g).exhaustPosts = g.exhaustPosts ∧
    (exit_state g).targetPosts = g.targetPosts ∧
    (exit_state g).frontierIndex = g.frontierIndex ∧
    (exit_state g).pngsFound = g.pngsFound ∧ (exit_state g).urlsVisited = g.urlsVisited ∧
    logged (exit_state g) = logged g ∧ png_list (exit_state g) = png_list g :=
  ⟨rfl, rfl, rfl, rfl, rfl, rfl, rfl, rfl⟩

/-- C3: when the URLs reachable from the seed form a finite set `R` of fewer than
1000 URLs with fewer than `M` PNGs among them, the single-worker loop started in
the initial state of `main` leaves the loop within `R.card + 1` turns; `allDone`
was set by the exhaustion block and never by the target block, the frontier is
empty, `pngsFound` is the number of reachable PNGs, and the worker popped once
per reachable URL. -/
theorem C3_exhaustion_termination (web : URL → Response) (seed : URL) (M : Int) (room : Nat)
    (R : Finset URL) (hR : ∀ u, u ∈ R ↔ Reach web seed u) (hcard : R.card < 1000)
    (hpng : ((R.filter (fun u => (web u).isPNG = true)).card : Int) < M) :
    ∃ g, watchCount web (R.card + 1) (main_init seed 1 M room) = Outcome.exited g ∧
      g.allDone = true ∧ g.exhaustPosts = 1 ∧ g.targetPosts = 0 ∧ g.frontierIndex < 0 ∧
      g.pngsFound = ((R.filter (fun u => (web u).isPNG = true)).card : Int) ∧
      g.urlsVisited = (R.card : Int) := by
  have hM : 0 < M := by
    have : (0 : Int) ≤ ((R.filter (fun u => (web u).isPNG = true)).card : Int) := by positivity
    omega
  obtain ⟨g0, V, hinv, hd, htot, hw, hV, hVnd, hVR, hfound, hpl, huv, hall⟩ :=
    crawl_final web seed M room R hR hcard hM
  have hle := png_count_le web R V hVnd hVR
  have htp : g0.targetPosts = 0 := by
    rcases hinv.target with ⟨h, _⟩ | ⟨_, h, _⟩
    · exact h
    · rw [htot, hfound] at h
      omega
  have hpos := hinv.done_iff.mp hd
  have hex : g0.exhaustPosts = 1 ∧ g0.frontierIndex = -1 := by
    rcases hinv.exhaust with ⟨h, _⟩ | h
    · omega
    · exact h
  have hRV := hall hex.2
  have hge := png_count_ge web R V hRV
  have hlen1 := length_le_card R V hVnd hVR
  have hlen2 := card_le_length R V hRV
  obtain ⟨e1, e2, e3, e4, e5, e6, _, _⟩ := exit_state_fields g0
  refine ⟨exit_state g0, hw, by rw [e1, hd], by rw [e2, hex.1], by rw [e3, htp],
    by rw [e4, hex.2]; norm_num, ?_, ?_⟩
  · rw [e5, hfound]
    have : (V.filter (fun u => (web u).isPNG)).length
        = (R.filter (fun u => (web u).isPNG = true)).card := le_antisymm hle hge
    rw [this]
  · rw [e6, huv]
    have : V.length = R.card := le_antisymm hlen1 hlen2
    rw [this]

/-- C4: for every target `M` of at least one, the record attempt made with
`pngsFound = M - 1` brings `pngsFound` to `M`, sets `allDone` and posts `items`
once; and for every web in which the URLs reachable from the seed form a finite
set of fewer than 1000 URLs with at least `M` PNGs among them, the single-worker
loop leaves the loop within `R.card + 1` turns with exactly `M` results, which are
the PNGs among the popped URLs in pop order, and the last popped URL is the PNG
whose record reached `M`. -/
theorem C4_target_termination (M : Int) (hM : 1 ≤ M) :
    (∀ (g : Globals) (u : URL), g.totalPNGs = M → g.pngsFound + 1 = M →
      (record_block u g).pngsFound = M ∧ (record_block u g).allDone = true ∧
      (record_block u g).items = g.items + 1 ∧
      (record_block u g).PNGs = store g.PNGs g.pngsFound (some u)) ∧
    (∀ (web : URL → Response) (seed : URL) (room : Nat) (R : Finset URL),
      (∀ u, u ∈ R ↔ Reach web seed u) → R.card < 1000 →
      M ≤ ((R.filter (fun u => (web u).isPNG = true)).card : Int) →
      ∃ (g : Globals) (V : List URL) (u : URL),
        watchCount web (R.card + 1) (main_init seed 1 M room) = Outcome.exited g ∧
        g.pngsFound = M ∧ g.targetPosts = 1 ∧ g.allDone = true ∧
        logged g = (V ++ [u]).map some ∧ (web u).isPNG = true ∧
        png_list g = ((V ++ [u]).filter (fun u => (web u).isPNG)).map some ∧
        ((png_list g).length : Int) = M) := by
  constructor
  · intro g u ht hp
    have hlt : g.pngsFound < g.totalPNGs := by omega
    have hhit : g.pngsFound + 1 = g.totalPNGs := by omega
    have e : record_block u g =
        sem_post { ({ g with PNGs := store g.PNGs g.pngsFound (some u),
                             pngsFound := g.pngsFound + 1 } : Globals) with
                   allDone := true, targetPosts := g.targetPosts + 1 } := by
      simp only [record_block, hlt, if_true, hhit]
    rw [e]
    exact ⟨hp, rfl, rfl, rfl⟩
  · intro web seed room R hR hcard hpng
    obtain ⟨g0, V, hinv, hd, htot, hw, hV, hVnd, hVR, hfound, hpl, huv, hall⟩ :=
      crawl_final web seed M room R hR hcard (by omega)
    have htp : g0.targetPosts = 1 ∧ g0.pngsFound = g0.totalPNGs ∧
        ∃ pre u, logged g0 = pre ++ [some u] ∧ (web u).isPNG = true := by
      rcases hinv.target with ⟨h1, h2⟩ | h
      · exfalso
        have hpos := hinv.done_iff.mp hd
        have hex : g0.exhaustPosts = 1 ∧ g0.frontierIndex = -1 := by
          rcases hinv.exhaust with ⟨h, _⟩ | h
          · omega
          · exact h
        have hge := png_count_ge web R V (hall hex.2)
        rw [htot, hfound] at h2
        omega
      · exact h
    obtain ⟨h1, h2, pre, u, h3, h4⟩ := htp
    obtain ⟨e1, e2, e3, e4, e5, e6, e7, e8⟩ := exit_state_fields g0
    have hVne : ∃ V0, V = V0 ++ [u] := by
      rw [hV] at h3
      rcases List.eq_nil_or_concat V with hnil | ⟨V0, w, hcat⟩
      · rw [hnil] at h3
        simp at h3
      · rw [hcat, List.concat_eq_append] at h3 ⊢
        simp only [List.map_append, List.map_cons, List.map_nil] at h3
        have := (List.append_inj' h3 (by simp)).2
        simp only [List.cons.injEq, Option.some.injEq, and_true] at this
        exact ⟨V0, by rw [this]⟩
    obtain ⟨V0, rfl⟩ := hVne
    refine ⟨exit_state g0, V0, u, hw, by rw [e5, h2, htot], by rw [e3, h1], by rw [e1, hd],
      by rw [e7, hV], h4, by rw [e8, hpl], ?_⟩
    rw [e8, hpl, List.length_map, ← hfound, h2, htot]

/-- C3 at a concrete web: a seed that has no links and is not a PNG, target 1.
The worker leaves the loop in its second turn, through the exhaustion block,
with no result and after one pop. -/
theorem C3_exhaustion_termination_witness :
    ∃ g, watchCount web_empty 2 (main_init "http://a" 1 1 0) = Outcome.exited g ∧
      g.exhaustPosts = 1 ∧ g.targetPosts = 0 ∧ g.pngsFound = 0 ∧ g.urlsVisited = 1 := by
  have hf : (({"http://a"} : Finset URL).filter (fun u => (web_empty u).isPNG = true)) = ∅ := by
    decide
  obtain ⟨g, h1, _, h3, h4, _, h6, h7⟩ :=
    C3_exhaustion_termination web_empty "http://a" 1 0 {"http://a"}
      (fun u => by rw [reach_web_empty]; simp) (by decide) (by rw [hf]; decide)
  refine ⟨g, h1, h3, h4, ?_, ?_⟩
  · rw [h6, hf]; rfl
  · rw [h7]; rfl

/-- C4 at concrete inputs.  With target 2000 and 1999 results so far, the record
attempt reaches 2000 and sets `allDone`.  In the scenario (seed `a`, `a` links to
`b` and `c`, `b` links to `d`, `d` is a PNG, target 1) the worker leaves the loop
with the result list `[d]`. -/
theorem C4_target_termination_witness :
    ((record_block "http://u" target_2000).pngsFound = 2000 ∧
      (record_block "http://u" target_2000).allDone = true ∧
      (record_block "http://u" target_2000).items = target_2000.items + 1) ∧
    ∃ g, watchCount web_abcd 5 (main_init "http://a" 1 1 0) = Outcome.exited g ∧
      g.pngsFound = 1 ∧ png_list g = [some "http://d"] := by
  have hf : (urls_abcd.filter (fun u => (web_abcd u).isPNG = true)) = {"http://d"} := by
    decide
  obtain ⟨r1, r2, r3, _⟩ :=
    (C4_target_termination 2000 (by decide)).1 target_2000 "http://u" rfl (by decide)
  obtain ⟨g, V, u, h1, h2, _⟩ :=
    (C4_target_termination 1 (by decide)).2 web_abcd "http://a" 0 urls_abcd reach_web_abcd
      (by decide) (by rw [hf]; decide)
  have hs : (watchCount web_abcd 5 (main_init "http://a" 1 1 0)).summary
      = some (1, 4, [some "http://d"]) := by decide
  have h1b : watchCount web_abcd 5 (main_init "http://a" 1 1 0) = Outcome.exited g := h1
  rw [h1b] at hs
  simp only [Outcome.summary, Option.some.injEq, Prod.mk.injEq] at hs
  exact ⟨⟨r1, r2, r3⟩, g, h1b, h2, hs.2.2⟩

/-! ## The system of workers -/

theorem sum_map_set (f : PC → Int) (l : List PC) :
    ∀ (i : Nat) (pc x : PC), l.get? i = some pc →
      ((l.set i x).map f).sum = (l.map f).sum - f pc + f x := by
  induction l with
  | nil => intro i pc x h; simp at h
  | cons a l ih =>
    intro i pc x h
    cases i with
    | zero =>
      simp only [List.get?_cons_zero, Option.some.injEq] at h
      subst h
      simp only [List.set_cons_zero, List.map_cons, List.sum_cons]
      ring
    | succ i =>
      simp only [List.get?_cons_succ] at h
      simp only [List.set_cons_succ, List.map_cons, List.sum_cons, ih i pc x h]
      ring

theorem claimed_le_held (pc : PC) : PC.claimed pc ≤ PC.held pc := by
  cases pc <;> simp [PC.claimed, PC.held, PC.between, PC.pending, PC.popping]

theorem held_sub_claimed (l : List PC) :
    ∀ (i : Nat) (pc : PC), l.get? i = some pc →
      PC.held pc - PC.claimed pc ≤ (l.map PC.held).sum - (l.map PC.claimed).sum := by
  induction l with
  | nil => intro i pc h; simp at h
  | cons a l ih =>
    intro i pc h
    have hnn : ∀ m : List PC, 0 ≤ (m.map PC.held).sum - (m.map PC.claimed).sum := by
      intro m
      induction m with
      | nil => simp
      | cons b m ihm =>
        have := claimed_le_held b
        simp only [List.map_cons, List.sum_cons]
        omega
    cases i with
    | zero =>
      simp only [List.get?_cons_zero, Option.some.injEq] at h
      subst h
      have := hnn l
      simp only [List.map_cons, List.sum_cons]
      omega
    | succ i =>
      simp only [List.get?_cons_succ] at h
      have := ih i pc h
      have := claimed_le_held a
      simp only [List.map_cons, List.sum_cons]
      omega

theorem claimed_nonneg (l : List PC) : 0 ≤ (l.map PC.claimed).sum := by
  induction l with
  | nil => simp
  | cons b m ih =>
    have : 0 ≤ PC.claimed b := by
      cases b <;> simp [PC.claimed, PC.pending, PC.popping]
    simp only [List.map_cons, List.sum_cons]
    omega

theorem held_eq_claimed (l : List PC) (h : ∀ pc ∈ l, PC.between pc = false) :
    (l.map PC.held).sum = (l.map PC.claimed).sum := by
  induction l with
  | nil => rfl
  | cons a l ih =>
    have ha := h a (by simp)
    have e : PC.held a = PC.claimed a := by
      cases a <;> simp [PC.claimed, PC.held, PC.between, PC.pending, PC.popping] at ha ⊢
    simp only [List.map_cons, List.sum_cons, e, ih (fun pc hpc => h pc (List.mem_cons_of_mem _ hpc))]

theorem held_values :
    PC.held PC.at_wait = 0 ∧ PC.held PC.at_dec = 1 ∧ PC.held PC.at_check = 1 ∧
    PC.held PC.at_forward = 1 ∧ PC.held PC.at_pop = 1 ∧ PC.held PC.at_inc = 0 ∧
    PC.held PC.at_exhaust = 0 ∧ PC.held PC.exited = 0 ∧ PC.held PC.crashed = 0 ∧
    (∀ u, PC.held (PC.at_record u) = 0) ∧ (∀ l, PC.held (PC.at_href l) = 0) ∧
    (∀ h l, PC.held (PC.at_push h l) = 0) ∧ (∀ h l, PC.held (PC.at_enter h l) = 1) ∧
    (∀ l, PC.held (PC.at_post l) = 1) :=
  ⟨rfl, rfl, rfl, rfl, rfl, rfl, rfl, rfl, rfl, fun _ => rfl, fun _ => rfl, fun _ _ => rfl,
    fun _ _ => rfl, fun _ => rfl⟩

theorem claimed_values :
    PC.claimed PC.at_wait = 0 ∧ PC.claimed PC.at_dec = 0 ∧ PC.claimed PC.at_check = 0 ∧
    PC.claimed PC.at_forward = 0 ∧ PC.claimed PC.at_pop = 1 ∧ PC.claimed PC.at_inc = 0 ∧
    PC.claimed PC.at_exhaust = 0 ∧ PC.claimed PC.exited = 0 ∧ PC.claimed PC.crashed = 0 ∧
    (∀ u, PC.claimed (PC.at_record u) = 0) ∧ (∀ l, PC.claimed (PC.at_href l) = 0) ∧
    (∀ h l, PC.claimed (PC.at_push h l) = 0) ∧ (∀ h l, PC.claimed (PC.at_enter h l) = 1) ∧
    (∀ l, PC.claimed (PC.at_post l) = 1) :=
  ⟨rfl, rfl, rfl, rfl, rfl, rfl, rfl, rfl, rfl, fun _ => rfl, fun _ => rfl, fun _ _ => rfl,
    fun _ _ => rfl, fun _ => rfl⟩

theorem sysInv_set (s : Sys) (i : Nat) (pc x : PC) (g1 : Globals)
    (hget : s.pcs.get? i = some pc) (hinv : SysInv s)
    (htok : (g1.items : Int) + PC.held x - (g1.frontierIndex + 1 + g1.targetPosts + g1.exhaustPosts)
      = (s.g.items : Int) + PC.held pc
        - (s.g.frontierIndex + 1 + s.g.targetPosts + s.g.exhaustPosts))
    (hdone : g1.allDone = true ↔ 0 < g1.targetPosts + g1.exhaustPosts)
    (hclaim : (s.pcs.map PC.claimed).sum - PC.claimed pc + PC.claimed x ≤ g1.frontierIndex + 1) :
    SysInv { g := g1, pcs := s.pcs.set i x } := by
  refine ⟨?_, hdone, ?_⟩
  · have := hinv.tokens
    simp only [sum_map_set PC.held s.pcs i pc x hget]
    omega
  · simp only [sum_map_set PC.claimed s.pcs i pc x hget]
    exact hclaim

theorem record_block_tokens (u : URL) (g : Globals) :
    (record_block u g).frontierIndex = g.frontierIndex ∧
    (record_block u g).exhaustPosts = g.exhaustPosts ∧
    (((record_block u g).items = g.items ∧ (record_block u g).targetPosts = g.targetPosts ∧
        (record_block u g).allDone = g.allDone) ∨
      ((record_block u g).items = g.items + 1 ∧
        (record_block u g).targetPosts = g.targetPosts + 1 ∧
        (record_block u g).allDone = true)) := by
  simp only [record_block, sem_post]
  split_ifs <;> simp

theorem crawl_record_tokens (r : Response) (u : URL) (g : Globals) :
    (crawl_record r u g).frontierIndex = g.frontierIndex ∧
    (crawl_record r u g).exhaustPosts = g.exhaustPosts ∧
    (((crawl_record r u g).items = g.items ∧ (crawl_record r u g).targetPosts = g.targetPosts ∧
        (crawl_record r u g).allDone = g.allDone) ∨
      ((crawl_record r u g).items = g.items + 1 ∧
        (crawl_record r u g).targetPosts = g.targetPosts + 1 ∧
        (crawl_record r u g).allDone = true)) := by
  unfold crawl_record
  split_ifs
  · exact record_block_tokens u g
  · exact ⟨rfl, rfl, Or.inl ⟨rfl, rfl, rfl⟩⟩

theorem exhaust_block_tokens (g : Globals) :
    (exhaust_block g).frontierIndex = g.frontierIndex ∧
    (exhaust_block g).targetPosts = g.targetPosts ∧
    (((exhaust_block g).items = g.items ∧ (exhaust_block g).exhaustPosts = g.exhaustPosts ∧
        (exhaust_block g).allDone = g.allDone) ∨
      ((exhaust_block g).items = g.items + 1 ∧
        (exhaust_block g).exhaustPosts = g.exhaustPosts + 1 ∧
        (exhaust_block g).allDone = true)) := by
  rcases exhaust_block_cases g with ⟨_, _, e⟩ | ⟨_, e⟩
  · rw [e]; exact ⟨rfl, rfl, Or.inr ⟨rfl, rfl, rfl⟩⟩
  · rw [e]; exact ⟨rfl, rfl, Or.inl ⟨rfl, rfl, rfl⟩⟩

theorem sysInv_step (web : URL → Response) (s s1 : Sys) (i : Nat) (hinv : SysInv s)
    (hstep : sys_step web s i = some s1) : SysInv s1 := by
  unfold sys_step at hstep
  cases hget : s.pcs.get? i with
  | none => rw [hget] at hstep; simp at hstep
  | some pc =>
    rw [hget] at hstep
    simp only at hstep
    cases hp : pc_step web s.g pc with
    | none => rw [hp] at hstep; simp at hstep
    | some p =>
      obtain ⟨g1, x⟩ := p
      rw [hp] at hstep
      simp only [Option.map_some', Option.some.injEq] at hstep
      subst hstep
      have hd := hinv.done_iff
      have hc := hinv.claims
      have hnn := claimed_nonneg s.pcs
      have hdiff := held_sub_claimed s.pcs i pc hget
      have htk := hinv.tokens
      cases pc with
      | at_wait =>
        simp only [pc_step] at hp
        cases hw : sem_wait s.g with
        | none => rw [hw] at hp; simp at hp
        | some g2 =>
          rw [hw] at hp
          simp only [Option.map_some', Option.some.injEq, Prod.mk.injEq] at hp
          obtain ⟨rfl, rfl⟩ := hp
          obtain ⟨hpos, rfl⟩ := sem_wait_some s.g g2 hw
          apply sysInv_set s i _ _ _ hget hinv
          · simp only [held_values, claimed_values, sem_post, frontier_push, hash_enter, pop_block]
            omega
          · exact hd
          · simp only [held_values, claimed_values, sem_post, frontier_push, hash_enter, pop_block]
            omega
      | at_dec =>
        simp only [pc_step, Option.some.injEq, Prod.mk.injEq] at hp
        obtain ⟨rfl, rfl⟩ := hp
        refine sysInv_set s i _ _ _ hget hinv rfl hd ?_
        simp only [held_values, claimed_values, sem_post, frontier_push, hash_enter, pop_block]
        omega
      | at_check =>
        simp only [pc_step, Option.some.injEq, Prod.mk.injEq] at hp
        obtain ⟨rfl, rfl⟩ := hp
        by_cases hdone : s.g.allDone = true
        · rw [if_pos hdone]
          refine sysInv_set s i _ _ _ hget hinv rfl hd ?_
          simp only [held_values, claimed_values, sem_post, frontier_push, hash_enter, pop_block]
          omega
        · rw [if_neg hdone]
          have hz : s.g.targetPosts + s.g.exhaustPosts = 0 := by
            by_contra h
            exact hdone (hd.mpr (Nat.pos_of_ne_zero h))
          refine sysInv_set s i _ _ _ hget hinv rfl hd ?_
          simp only [held_values, claimed_values, sem_post, frontier_push, hash_enter, pop_block]
          have h1 : PC.held PC.at_check - PC.claimed PC.at_check = 1 := rfl
          rw [h1] at hdiff
          omega
      | at_forward =>
        simp only [pc_step, Option.some.injEq, Prod.mk.injEq] at hp
        obtain ⟨rfl, rfl⟩ := hp
        apply sysInv_set s i _ _ _ hget hinv
        · simp only [held_values, claimed_values, sem_post, frontier_push, hash_enter, pop_block]
          push_cast; omega
        · exact hd
        · simp only [held_values, claimed_values, sem_post, frontier_push, hash_enter, pop_block]
          omega
      | at_pop =>
        simp only [pc_step] at hp
        have hcl : (s.pcs.map PC.claimed).sum - 1 ≤ s.g.frontierIndex - 1 + 1 := by omega
        cases hu : (pop_block s.g).1 with
        | none =>
          have : pop_block s.g = (none, (pop_block s.g).2) := by rw [← hu]
          rw [this] at hp
          simp only [Option.some.injEq, Prod.mk.injEq] at hp
          obtain ⟨rfl, rfl⟩ := hp
          apply sysInv_set s i _ _ _ hget hinv
          · simp only [held_values, claimed_values, sem_post, frontier_push, hash_enter, pop_block]
            omega
          · exact hd
          · simp only [held_values, claimed_values, sem_post, frontier_push, hash_enter, pop_block]
            omega
        | some u =>
          have : pop_block s.g = (some u, (pop_block s.g).2) := by rw [← hu]
          rw [this] at hp
          simp only [Option.some.injEq, Prod.mk.injEq] at hp
          obtain ⟨rfl, rfl⟩ := hp
          apply sysInv_set s i _ _ _ hget hinv
          · simp only [held_values, claimed_values, sem_post, frontier_push, hash_enter, pop_block]
            omega
          · exact hd
          · simp only [held_values, claimed_values, sem_post, frontier_push, hash_enter, pop_block]
            omega
      | at_record u =>
        simp only [pc_step, Option.some.injEq, Prod.mk.injEq] at hp
        obtain ⟨rfl, rfl⟩ := hp
        obtain ⟨e1, e2, e3⟩ := crawl_record_tokens (web u) u s.g
        apply sysInv_set s i _ _ _ hget hinv
        · simp only [held_values, claimed_values, sem_post, frontier_push, hash_enter, pop_block]
          rw [e1, e2]
          rcases e3 with ⟨a, b, _⟩ | ⟨a, b, _⟩
          · rw [a, b]
          · rw [a, b]; push_cast; ring
        · rw [e2]
          rcases e3 with ⟨_, b, c⟩ | ⟨_, b, c⟩
          · rw [b, c]; exact hd
          · rw [b, c]; simp
        · simp only [held_values, claimed_values, sem_post, frontier_push, hash_enter, pop_block]
          rw [e1]; omega
      | at_href l =>
        have key : g1 = s.g ∧ PC.held x = 0 ∧ PC.claimed x = 0 := by
          cases l with
          | nil =>
            simp only [pc_step, Option.some.injEq, Prod.mk.injEq] at hp
            obtain ⟨rfl, rfl⟩ := hp
            exact ⟨rfl, rfl, rfl⟩
          | cons c rest =>
            cases c with
            | none =>
              simp only [pc_step, Option.some.injEq, Prod.mk.injEq] at hp
              obtain ⟨rfl, rfl⟩ := hp
              exact ⟨rfl, rfl, rfl⟩
            | some h =>
              simp only [pc_step] at hp
              split_ifs at hp <;>
                (simp only [Option.some.injEq, Prod.mk.injEq] at hp
                 obtain ⟨rfl, rfl⟩ := hp
                 exact ⟨rfl, rfl, rfl⟩)
        obtain ⟨rfl, k1, k2⟩ := key
        apply sysInv_set s i _ _ _ hget hinv
        · rw [k1]; rfl
        · exact hd
        · rw [k2]
          simp only [held_values, claimed_values, sem_post, frontier_push, hash_enter, pop_block]
          omega
      | at_push h rest =>
        simp only [pc_step, Option.some.injEq, Prod.mk.injEq] at hp
        obtain ⟨rfl, rfl⟩ := hp
        apply sysInv_set s i _ _ _ hget hinv
        · simp only [held_values, claimed_values, sem_post, frontier_push, hash_enter, pop_block]
          ring
        · exact hd
        · simp only [held_values, claimed_values, sem_post, frontier_push, hash_enter, pop_block]
          omega
      | at_enter h rest =>
        simp only [pc_step, Option.some.injEq, Prod.mk.injEq] at hp
        obtain ⟨rfl, rfl⟩ := hp
        refine sysInv_set s i _ _ _ hget hinv rfl hd ?_
        simp only [held_values, claimed_values, sem_post, frontier_push, hash_enter, pop_block]
        omega
      | at_post rest =>
        simp only [pc_step, Option.some.injEq, Prod.mk.injEq] at hp
        obtain ⟨rfl, rfl⟩ := hp
        apply sysInv_set s i _ _ _ hget hinv
        · simp only [held_values, claimed_values, sem_post, frontier_push, hash_enter, pop_block]
          push_cast; omega
        · exact hd
        · simp only [held_values, claimed_values, sem_post, frontier_push, hash_enter, pop_block]
          omega
      | at_inc =>
        simp only [pc_step, Option.some.injEq, Prod.mk.injEq] at hp
        obtain ⟨rfl, rfl⟩ := hp
        refine sysInv_set s i _ _ _ hget hinv rfl hd ?_
        simp only [held_values, claimed_values, sem_post, frontier_push, hash_enter, pop_block]
        omega
      | at_exhaust =>
        simp only [pc_step, Option.some.injEq, Prod.mk.injEq] at hp
        obtain ⟨rfl, rfl⟩ := hp
        obtain ⟨e1, e2, e3⟩ := exhaust_block_tokens s.g
        apply sysInv_set s i _ _ _ hget hinv
        · simp only [held_values, claimed_values, sem_post, frontier_push, hash_enter, pop_block]
          rw [e1, e2]
          rcases e3 with ⟨a, b, _⟩ | ⟨a, b, _⟩
          · rw [a, b]
          · rw [a, b]; push_cast; ring
        · rw [e2]
          rcases e3 with ⟨_, b, c⟩ | ⟨_, b, c⟩
          · rw [b, c]; exact hd
          · rw [b, c]; simp
        · simp only [held_values, claimed_values, sem_post, frontier_push, hash_enter, pop_block]
          rw [e1]; omega
      | exited => simp [pc_step] at hp
      | crashed => simp [pc_step] at hp


/-! ## Cascading wake and the claim race -/

theorem sysInv_init (seed : URL) (T : Nat) (m : Int) (room : Nat) :
    SysInv (sys_init seed T m room) := by
  have h1 : ((List.replicate T PC.at_wait).map PC.held).sum = 0 := by
    simp [List.map_replicate, List.sum_replicate, held_values]
  have h2 : ((List.replicate T PC.at_wait).map PC.claimed).sum = 0 := by
    simp [List.map_replicate, List.sum_replicate, claimed_values]
  refine ⟨?_, ?_, ?_⟩
  · simp only [sys_init, h1]
    simp [main_init]
  · simp [sys_init, main_init]
  · simp only [sys_init, h2]
    simp [main_init]

theorem sysInv_run (web : URL → Response) (sched : List Nat) :
    ∀ s s1 : Sys, SysInv s → sys_run web s sched = some s1 → SysInv s1 := by
  induction sched with
  | nil =>
    intro s s1 hinv h
    simp only [sys_run, Option.some.injEq] at h
    subst h; exact hinv
  | cons i rest ih =>
    intro s s1 hinv h
    simp only [sys_run] at h
    cases hs : sys_step web s i with
    | none => rw [hs] at h; simp at h
    | some s2 =>
      rw [hs] at h
      simp only [Option.some_bind] at h
      exact ih s2 s1 (sysInv_step web s s2 i hinv hs) h

theorem forward_steps (web : URL → Response) (s : Sys) (i : Nat)
    (hget : s.pcs.get? i = some PC.at_wait) (hpos : 0 < s.g.items)
    (hdone : s.g.allDone = true) :
    sys_run web s [i, i, i, i] = some
      { g := sem_post { ({ s.g with items := s.g.items - 1 } : Globals) with
                        count := s.g.count - 1 },
        pcs := s.pcs.set i PC.exited } := by
  have hlt : i < s.pcs.length := by
    rcases Nat.lt_or_ge i s.pcs.length with h | h
    · exact h
    · rw [List.get?_eq_none.mpr h] at hget; simp at hget
  have hne : s.g.items ≠ 0 := Nat.pos_iff_ne_zero.mp hpos
  have g1 : ∀ (l : List PC) (x : PC), i < l.length → (l.set i x).get? i = some x := by
    intro l x h
    simp [List.getElem?_set, h]
  simp only [sys_run, sys_step, hget, pc_step, sem_wait, hne, if_false, Option.map_some',
    Option.some_bind, g1 s.pcs _ hlt, List.length_set, hlt, hdone, if_true, List.set_set]

theorem sys_run_mem_states (web : URL → Response) (sched : List Nat) :
    ∀ s s1 : Sys, sys_run web s sched = some s1 → s1 ∈ sys_states web s sched := by
  induction sched with
  | nil =>
    intro s s1 h
    simp only [sys_run, Option.some.injEq] at h
    subst h
    simp [sys_states]
  | cons i rest ih =>
    intro s s1 h
    simp only [sys_run] at h
    cases hs : sys_step web s i with
    | none => rw [hs] at h; simp at h
    | some s2 =>
      rw [hs] at h
      simp only [Option.some_bind] at h
      simp only [sys_states, hs]
      exact List.mem_cons_of_mem _ (ih s2 s1 h)

/-- C5: in the system of workers started by `main`, for every schedule whose
states all use `frontier` and `visited` inside their 1000 slots, in the state
reached, if `allDone` is set, (1) the state is inside the arrays; (2) if no worker
is between its `sem_wait` and the pop or forwarding post that follows it, `items`
is at least one; and (3) a worker about to wait, with `items` available, returns
from `sem_wait`, sees `allDone`, posts once and leaves the loop: after its four
steps `items` is what it was, the frontier, `frontierIndex` and the visited log
are untouched, and the worker has exited. -/
theorem C5_cascading_wake (web : URL → Response) (seed : URL) (T : Nat) (m : Int) (room : Nat)
    (sched : List Nat) (s : Sys) (i : Nat)
    (hrun : sys_run web (sys_init seed T m room) sched = some s)
    (hbound : run_in_bounds web (sys_init seed T m room) sched = true)
    (hdone : s.g.allDone = true) :
    in_bounds s.g = true ∧
    ((∀ pc ∈ s.pcs, PC.between pc = false) → 1 ≤ s.g.items) ∧
    (s.pcs.get? i = some PC.at_wait → 0 < s.g.items →
      ∃ s4, sys_run web s [i, i, i, i] = some s4 ∧ s4.pcs = s.pcs.set i PC.exited ∧
        s4.g.items = s.g.items ∧ s4.g.frontier = s.g.frontier ∧
        s4.g.frontierIndex = s.g.frontierIndex ∧ s4.g.visited = s.g.visited ∧
        s4.g.urlsVisited = s.g.urlsVisited) := by
  have hinv := sysInv_run web sched _ s (sysInv_init seed T m room) hrun
  have hmem := sys_run_mem_states web sched _ s hrun
  have hin : in_bounds s.g = true := by
    unfold run_in_bounds at hbound
    exact List.all_eq_true.mp hbound s hmem
  refine ⟨hin, ?_, ?_⟩
  · intro hb
    have h1 := held_eq_claimed s.pcs hb
    have h2 := hinv.tokens
    have h3 := hinv.claims
    have h4 := hinv.done_iff.mp hdone
    omega
  · intro hget hpos
    refine ⟨_, forward_steps web s i hget hpos hdone, rfl, ?_, rfl, rfl, rfl, rfl⟩
    show s.g.items - 1 + 1 = s.g.items
    omega

/-- C5 at a concrete state: two workers on the empty web, worker 0 has declared
exhaustion and is about to wait again, worker 1 never ran. -/
theorem C5_cascading_wake_witness :
    1 ≤ wake_state.g.items ∧ wake_state.pcs = [PC.at_wait, PC.at_wait] :=
  ⟨(C5_cascading_wake web_empty "http://a" 2 1 0 [0, 0, 0, 0, 0, 0, 0, 0] wake_state 1 rfl
      (by decide) (by decide)).2.1 (by decide), by decide⟩

/-- C6, evaluated on the code: two workers crawl `b` and `c`, which both link to
`x`.  Before the lookups `x` is not in the table; after both lookups each worker
stands before the push of `x`, so each was told that `x` is absent; after the
pushes `x` is on the frontier twice; and both copies are popped. -/
theorem C6_claim_race :
    (sys_run web_race (sys_init "http://a" 2 5 0) race_start).map
        (fun s => (s.pcs, s.g.visitedHash.keys))
      = some ([PC.at_href [some "http://x"], PC.at_href [some "http://x"]],
          ["http://a", "http://b", "http://c"]) ∧
    (sys_run web_race (sys_init "http://a" 2 5 0) (race_start ++ race_lookups)).map
        (fun s => s.pcs)
      = some [PC.at_push "http://x" [], PC.at_push "http://x" []] ∧
    (sys_run web_race (sys_init "http://a" 2 5 0)
        (race_start ++ race_lookups ++ race_pushes)).map (fun s => live s.g)
      = some [some "http://x", some "http://x"] ∧
    (sys_run web_race (sys_init "http://a" 2 5 0)
        (race_start ++ race_lookups ++ race_pushes ++ race_pops)).map (fun s => logged s.g)
      = some [some "http://a", some "http://c", some "http://b", some "http://x",
          some "http://x"] := by
  refine ⟨?_, ?_, ?_, ?_⟩ <;> decide


/-! ## The push at the end of the frontier array -/

theorem push_at_last_slot (g : Globals) (href : URL) (hfi : g.frontierIndex = 999)
    (hh : http_test href = true) (hn : href ∉ g.visitedHash.keys) :
    (find_http_step g (some href)).frontierIndex = 1000 ∧
    (find_http_step g (some href)).frontier 1000 = some href ∧
    ¬ ((find_http_step g (some href)).frontierIndex < ARRAY_LEN) ∧
    (find_http_step g (some href)).items = g.items + 1 := by
  simp [find_http_step, hh, hsearch_FIND, hn, sem_post, hash_enter, frontier_push, hfi, store,
    ARRAY_LEN]

theorem find_http_push_all (L : List URL) :
    ∀ g : Globals, L.Nodup → (∀ h ∈ L, http_test h = true) →
      (∀ h ∈ L, h ∉ g.visitedHash.keys) →
      g.visitedHash.keys.length + L.length ≤ g.visitedHash.size →
      (find_http (L.map some) g).frontierIndex = g.frontierIndex + L.length ∧
      (find_http (L.map some) g).visitedHash.keys = g.visitedHash.keys ++ L ∧
      (find_http (L.map some) g).visitedHash.size = g.visitedHash.size := by
  induction L with
  | nil => intro g _ _ _ _; simp [find_http]
  | cons h L ih =>
    intro g hnd hhttp hnew hroom
    have hh := hhttp h (by simp)
    have hn := hnew h (by simp)
    simp only [List.length_cons] at hroom
    have e : find_http_step g (some h) = sem_post (hash_enter h (frontier_push h g)) := by
      simp [find_http_step, hh, hsearch_FIND, hn]
    obtain ⟨k1, k2⟩ := hsearch_ENTER_new h g.visitedHash hn (by omega)
    obtain ⟨e1, _, _, e4, _, _, _⟩ := accept_fields h g
    have hf : find_http ((h :: L).map some) g = find_http (L.map some) (find_http_step g (some h)) :=
      rfl
    obtain ⟨hnd1, hnd2⟩ := List.nodup_cons.mp hnd
    obtain ⟨a, b, c⟩ := ih (find_http_step g (some h)) hnd2
      (fun x hx => hhttp x (List.mem_cons_of_mem _ hx))
      (by
        intro x hx
        rw [e, e4, k1]
        intro hmem
        rcases List.mem_append.mp hmem with m | m
        · exact hnew x (List.mem_cons_of_mem _ hx) m
        · simp at m; rw [m] at hx; exact hnd1 hx)
      (by rw [e, e4, k1, k2]; simp; omega)
    rw [hf, a, b, c, e, e1, e4, k1, k2]
    refine ⟨?_, by simp, rfl⟩
    simp only [List.length_cons]; push_cast; ring

theorem wide_link_http (n : Nat) : http_test (wide_link n) = true := by
  simp [http_test, wide_link]

theorem wide_link_injective : Function.Injective wide_link := by
  intro a b h
  have := congrArg (fun s : String => s.data.length) h
  simpa [wide_link] using this

theorem wide_popped_fields :
    wide_popped.frontierIndex = -1 ∧ wide_popped.visitedHash.keys = ["seed"] ∧
    wide_popped.visitedHash.size = 1009 ∧ (pop_block (wait_state (main_init "seed" 1 50 9))).1
      = some "seed" := by
  refine ⟨by decide, by decide, by decide, by decide⟩

theorem wide_before_last_fields :
    wide_before_last.frontierIndex = 999 ∧
    wide_link 1000 ∉ wide_before_last.visitedHash.keys := by
  obtain ⟨f1, f2, f3, _⟩ := wide_popped_fields
  obtain ⟨a, b, _⟩ := find_http_push_all ((List.range 1000).map wide_link) wide_popped
    (List.Nodup.map wide_link_injective (List.nodup_range 1000))
    (by
      intro h hm
      obtain ⟨n, _, rfl⟩ := List.mem_map.mp hm
      exact wide_link_http n)
    (by
      intro h hm
      obtain ⟨n, _, rfl⟩ := List.mem_map.mp hm
      rw [f2]
      intro hmem
      simp only [List.mem_singleton] at hmem
      have h1 := wide_link_http n
      rw [hmem] at h1
      revert h1
      decide)
    (by rw [f2, f3]; simp)
  have hw : wide_before_last = find_http (((List.range 1000).map wide_link).map some) wide_popped := by
    unfold wide_before_last wide_links
    rw [List.map_map]
    rfl
  rw [hw, a, b, f1, f2]
  refine ⟨by simp, ?_⟩
  intro hmem
  rcases List.mem_append.mp hmem with m | m
  · simp only [List.mem_singleton] at m
    have h1 := wide_link_http 1000
    rw [m] at h1
    revert h1
    decide
  · obtain ⟨n, hn, e⟩ := List.mem_map.mp m
    have := wide_link_injective e
    have := List.mem_range.mp hn
    omega

theorem wide_crawl :
    crawlURL web_wide "seed" wide_popped
      = find_http_step wide_before_last (some (wide_link 1000)) := by
  have hweb : web_wide "seed" = wide_page := by simp [web_wide]
  have hpng : png_test (curl_easy_perform wide_page (recv_buf_init BUF_SIZE)).buf = false := by
    decide
  have hcand : wide_page.candidates = wide_page.hrefs := by
    have h1 : ¬ (wide_page.response_code ≥ 400) := by decide
    have h2 : wide_page.content_type = some "text/html" := rfl
    have h3 : strstr "text/html" CT_HTML = true := by decide
    simp only [Response.candidates, h1, if_false, h2, h3, if_true]
  unfold crawlURL
  rw [process_data_eq, hweb, hcand]
  have hrec : crawl_record wide_page "seed" wide_popped = wide_popped := by
    unfold crawl_record
    rw [hpng]
    rfl
  rw [hrec]
  have hh : wide_page.hrefs = wide_links 1000 ++ [some (wide_link 1000)] := rfl
  rw [hh]
  unfold wide_before_last find_http
  rw [List.foldl_append, List.foldl_cons, List.foldl_nil]

/-- C8, evaluated on the code: the single worker crawls a seed page with 1001
distinct links.  Before the last link `frontierIndex` is 999, so the frontier
holds its 1000 entries; the loop body of `find_http` for the last link moves
`frontierIndex` to 1000, stores the link at index 1000, which is outside
`frontier[0..999]`, and posts `items`.  Nothing reports a failure: the crawl of
the page ends in that state. -/
theorem C8_push_past_capacity :
    (pop_block (wait_state (main_init "seed" 1 50 9))).1 = some "seed" ∧
    wide_before_last.frontierIndex = 999 ∧
    crawlURL web_wide "seed" wide_popped
      = find_http_step wide_before_last (some (wide_link 1000)) ∧
    (crawlURL web_wide "seed" wide_popped).frontierIndex = 1000 ∧
    (crawlURL web_wide "seed" wide_popped).frontier 1000 = some (wide_link 1000) ∧
    ¬ ((crawlURL web_wide "seed" wide_popped).frontierIndex < ARRAY_LEN) ∧
    (crawlURL web_wide "seed" wide_popped).items = wide_before_last.items + 1 := by
  obtain ⟨a, b⟩ := wide_before_last_fields
  obtain ⟨c1, c2, c3, c4⟩ := push_at_last_slot wide_before_last (wide_link 1000) a
    (wide_link_http 1000) b
  rw [wide_crawl]
  exact ⟨wide_popped_fields.2.2.2, a, rfl, c1, c2, c3, c4⟩

end Crawler
